import Mathlib

/-!
Verification of the content pipeline in `scripts/build.py` against its
specification.  Strings are modelled as `List Char`; each Python function
used by the claims is translated into a Lean definition of the same name.
-/

set_option maxRecDepth 10000

/-- Strings are modelled as lists of characters. -/
abbrev Str := List Char

/-- `isStart pat s` is true when `pat` is an initial segment of `s`
(the check Python performs when matching a literal at a position). -/
def isStart : Str → Str → Bool
  | [], _ => true
  | _ :: _, [] => false
  | p :: ps, c :: cs => p == c && isStart ps cs

/-- Index of the first occurrence of `pat` in `s`, as Python `str.find`
(but returning `none` instead of `-1` when absent). -/
def findSub (pat : Str) : Str → Option Nat
  | [] => if isStart pat [] then some 0 else none
  | c :: cs =>
    if isStart pat (c :: cs) then some 0
    else Option.map (fun n => n + 1) (findSub pat cs)

theorem isStart_iff (p s : Str) : isStart p s = true ↔ ∃ t, s = p ++ t := by
  induction p generalizing s with
  | nil => simp [isStart]
  | cons a as ih =>
    cases s with
    | nil => simp [isStart]
    | cons c cs =>
      simp only [isStart, Bool.and_eq_true, beq_iff_eq]
      constructor
      · rintro ⟨rfl, h⟩
        obtain ⟨t, rfl⟩ := (ih cs).mp h
        exact ⟨t, rfl⟩
      · rintro ⟨t, ht⟩
        cases ht
        exact ⟨rfl, (ih _).mpr ⟨t, rfl⟩⟩

theorem findSub_drop {pat s : Str} {i : Nat} (h : findSub pat s = some i) :
    ∃ t, List.drop i s = pat ++ t := by
  induction s generalizing i with
  | nil =>
    by_cases hp : isStart pat ([] : Str) = true
    · simp only [findSub, hp, if_true, Option.some.injEq] at h
      subst h
      obtain ⟨t, ht⟩ := (isStart_iff _ _).mp hp
      exact ⟨t, by simpa using ht⟩
    · simp [findSub, hp] at h
  | cons c cs ih =>
    by_cases hp : isStart pat (c :: cs) = true
    · simp only [findSub, hp, if_true, Option.some.injEq] at h
      subst h
      obtain ⟨t, ht⟩ := (isStart_iff _ _).mp hp
      exact ⟨t, by simpa using ht⟩
    · rw [findSub, if_neg hp] at h
      cases hfs : findSub pat cs with
      | none => rw [hfs] at h; simp at h
      | some j =>
        rw [hfs] at h
        simp only [Option.map_some', Option.some.injEq] at h
        subst h
        obtain ⟨t, ht⟩ := ih hfs
        exact ⟨t, by simpa using ht⟩

theorem findSub_decomp {pat s : Str} {i : Nat} (h : findSub pat s = some i) :
    s = List.take i s ++ pat ++ List.drop (i + pat.length) s := by
  obtain ⟨t, ht⟩ := findSub_drop h
  have h2 : List.drop (i + pat.length) s = t := by
    have h3 : List.drop pat.length (List.drop i s) = t := by
      rw [ht]; exact List.drop_left pat t
    rw [← h3, List.drop_drop, Nat.add_comm]
  calc s = List.take i s ++ List.drop i s := (List.take_append_drop i s).symm
    _ = List.take i s ++ (pat ++ t) := by rw [ht]
    _ = List.take i s ++ pat ++ List.drop (i + pat.length) s := by
        rw [h2, List.append_assoc]

/-- Begin marker literal built by `update_html_file`. -/
def beginMarkerOf (marker : Str) : Str :=
  ("<!-- BEGIN:").toList ++ marker ++ (" -->").toList

/-- End marker literal built by `update_html_file`. -/
def endMarkerOf (marker : Str) : Str :=
  ("<!-- END:").toList ++ marker ++ (" -->").toList

/-- The eight spaces of indentation inserted before the end marker. -/
def indent8 : Str := ("        ").toList

/-- Shallow embedding of `update_html_file` (scripts/build.py, lines 475-498):
the file contents come in as `html` and the would-be written contents are
returned, together with the boolean result.  When either marker is missing
the document is returned unchanged with `false`. -/
def update_html_file (html marker content : Str) : Str × Bool :=
  let begin_marker := beginMarkerOf marker
  let end_marker := endMarkerOf marker
  match findSub begin_marker html, findSub end_marker html with
  | some begin_index, some end_index =>
    (List.take (begin_index + begin_marker.length) html ++
      ('\n' :: content) ++ ('\n' :: indent8) ++ List.drop end_index html,
     true)
  | some _, none => (html, false)
  | none, _ => (html, false)

/-- C2: for a document containing both markers (begin before end), the
splice succeeds, the document up to and including the begin marker is kept,
the supplied content is placed in the region (preceded by a newline and
followed by a newline plus eight spaces of indentation), and the end marker
together with everything after it is preserved verbatim. -/
theorem C2_splice_success (html marker content : Str) (b e : Nat)
    (hb : findSub (beginMarkerOf marker) html = some b)
    (he : findSub (endMarkerOf marker) html = some e)
    (_hord : b + (beginMarkerOf marker).length ≤ e) :
    update_html_file html marker content =
      (List.take (b + (beginMarkerOf marker).length) html ++
        ('\n' :: content) ++ ('\n' :: indent8) ++ List.drop e html, true) ∧
    List.drop e html =
      endMarkerOf marker ++ List.drop (e + (endMarkerOf marker).length) html := by
  constructor
  · simp only [update_html_file, hb, he]
  · obtain ⟨t, ht⟩ := findSub_drop he
    have h2 : List.drop (e + (endMarkerOf marker).length) html = t := by
      have : List.drop (endMarkerOf marker).length (List.drop e html) = t := by
        rw [ht]; exact List.drop_left _ t
      rw [← this, List.drop_drop, Nat.add_comm]
    rw [ht, h2]

/-- C2 witness: a concrete document with both markers in order. -/
theorem C2_splice_success_witness :
    update_html_file ("AA<!-- BEGIN:x -->old<!-- END:x -->BB").toList
        ("x").toList ("NEW").toList =
      (("AA<!-- BEGIN:x -->\nNEW\n        <!-- END:x -->BB").toList, true) ∧
    List.drop 21 ("AA<!-- BEGIN:x -->old<!-- END:x -->BB").toList =
      endMarkerOf ("x").toList ++
        List.drop (21 + (endMarkerOf ("x").toList).length)
          ("AA<!-- BEGIN:x -->old<!-- END:x -->BB").toList := by
  have h := C2_splice_success ("AA<!-- BEGIN:x -->old<!-- END:x -->BB").toList
    ("x").toList ("NEW").toList 2 21 (by decide) (by decide) (by decide)
  exact ⟨by rw [h.1]; decide, h.2⟩

/-- C3: when either marker is missing, the splice returns the document
unchanged together with `false` (and, being a total function, it does not
raise). -/
theorem C3_splice_missing_marker (html marker content : Str)
    (h : findSub (beginMarkerOf marker) html = none ∨
         findSub (endMarkerOf marker) html = none) :
    update_html_file html marker content = (html, false) := by
  rcases h with h | h
  · simp only [update_html_file, h]
  · cases hb : findSub (beginMarkerOf marker) html with
    | none => simp only [update_html_file, hb]
    | some b => simp only [update_html_file, hb, h]

/-- C3 witness: a document with only a begin marker is left unchanged. -/
theorem C3_splice_missing_marker_witness :
    update_html_file ("AA<!-- BEGIN:x -->old").toList ("x").toList
        ("NEW").toList =
      (("AA<!-- BEGIN:x -->old").toList, false) := by
  exact C3_splice_missing_marker _ _ _ (Or.inr (by decide))

/-- C9: when both markers are present but the end marker comes first, the
splice still reports success; the output is the prefix up to and including
the begin marker, the glued-in content, and the suffix starting at the
first end-marker occurrence, so the text strictly between the end marker
and the begin marker appears twice in the output. -/
theorem C9_splice_unordered (html marker content : Str) (b e : Nat)
    (hb : findSub (beginMarkerOf marker) html = some b)
    (he : findSub (endMarkerOf marker) html = some e)
    (hord : e + (endMarkerOf marker).length ≤ b) :
    update_html_file html marker content =
      (List.take (b + (beginMarkerOf marker).length) html ++
        ('\n' :: content) ++ ('\n' :: indent8) ++ List.drop e html, true) ∧
    (update_html_file html marker content).1 =
      List.take (e + (endMarkerOf marker).length) html ++
        (List.drop (e + (endMarkerOf marker).length) (List.take b html)) ++
        (beginMarkerOf marker ++ ('\n' :: content) ++ ('\n' :: indent8) ++
          endMarkerOf marker) ++
        (List.drop (e + (endMarkerOf marker).length) (List.take b html)) ++
        List.drop b html := by
  have hmain : update_html_file html marker content =
      (List.take (b + (beginMarkerOf marker).length) html ++
        ('\n' :: content) ++ ('\n' :: indent8) ++ List.drop e html, true) := by
    simp only [update_html_file, hb, he]
  refine ⟨hmain, ?_⟩
  rw [hmain]
  obtain ⟨tb, htb⟩ := findSub_drop hb
  obtain ⟨te, hte⟩ := findSub_drop he
  have hblen : b ≤ html.length := by
    by_contra hgt
    push_neg at hgt
    have : List.drop b html = [] := List.drop_eq_nil_of_le (Nat.le_of_lt hgt)
    rw [this] at htb
    have : beginMarkerOf marker = [] := by
      cases hb' : beginMarkerOf marker with
      | nil => rfl
      | cons c cs => rw [hb'] at htb; simp at htb
    simp [beginMarkerOf] at this
  -- abbreviations
  set bm := beginMarkerOf marker with hbm
  set em := endMarkerOf marker with hem
  set k := e + em.length with hk
  -- seg is the text between the end marker and the begin marker
  set seg := List.drop k (List.take b html) with hseg
  -- take part: take (b + |bm|) html = take b html ++ bm
  have htake : List.take (b + bm.length) html = List.take b html ++ bm := by
    rw [List.take_add]
    congr 1
    rw [htb]
    rw [List.take_left' rfl]
  -- take b html = take k html ++ seg
  have htk : List.take b html = List.take k (List.take b html) ++ seg := by
    rw [hseg]; exact (List.take_append_drop k (List.take b html)).symm
  have htk2 : List.take k (List.take b html) = List.take k html := by
    rw [List.take_take, Nat.min_eq_left hord]
  -- drop e html = em ++ drop k html
  have hde : List.drop e html = em ++ List.drop k html := by
    have h2 : List.drop k html = te := by
      have : List.drop em.length (List.drop e html) = te := by
        rw [hte]; exact List.drop_left _ te
      rw [← this, List.drop_drop, hk, Nat.add_comm]
    rw [h2, hte]
  -- drop k html = seg ++ drop b html
  have hdk : List.drop k html = seg ++ List.drop b html := by
    have hsplit : html = List.take b html ++ List.drop b html :=
      (List.take_append_drop b html).symm
    conv =>
      lhs
      rw [hsplit]
    rw [List.drop_append_eq_append_drop]
    have hlen : (List.take b html).length = b := List.length_take_of_le hblen
    rw [hlen]
    have : k - b = 0 := Nat.sub_eq_zero_of_le hord
    rw [this, List.drop_zero, hseg]
  rw [htake, hde, hdk]
  conv =>
    lhs
    rw [htk, htk2]
  simp only [List.append_assoc]

/-- C9 witness: a concrete document whose end marker comes before the begin
marker; the between text `ZZ` appears twice in the output. -/
theorem C9_splice_unordered_witness :
    update_html_file ("<!-- END:x -->ZZ<!-- BEGIN:x -->tail").toList
        ("x").toList ("C").toList =
      (("<!-- END:x -->ZZ<!-- BEGIN:x -->\nC\n        <!-- END:x -->ZZ<!-- BEGIN:x -->tail").toList,
        true) := by
  have h := C9_splice_unordered ("<!-- END:x -->ZZ<!-- BEGIN:x -->tail").toList
    ("x").toList ("C").toList 16 0 (by decide) (by decide) (by decide)
  rw [h.1]
  decide

/-! ### Character classes (ASCII model of Python's `\w`, `\s`, `\d`) -/

/-- Python regex `\w` over ASCII: alphanumerics and the underscore. -/
def isPyWordChar (c : Char) : Bool := c.isAlphanum || c == '_'

/-- Python regex `\s` over ASCII: space, tab, newline, carriage return,
vertical tab and form feed. -/
def isPySpaceChar (c : Char) : Bool :=
  c == ' ' || c == '\t' || c == '\n' || c == '\r' ||
    c == Char.ofNat 11 || c == Char.ofNat 12

/-- Lower-casing of a string (ASCII model of Python `str.lower`). -/
def toLowerStr (s : Str) : Str := s.map Char.toLower

theorem char_toNat_ofNat_valid (n : Nat) (h : n.isValidChar) :
    (Char.ofNat n).toNat = n := by
  rw [Char.ofNat, dif_pos h]
  rfl

theorem toLower_idem (c : Char) : c.toLower.toLower = c.toLower := by
  show Char.toLower (Char.toLower c) = Char.toLower c
  unfold Char.toLower
  by_cases h : c.toNat ≥ 65 ∧ c.toNat ≤ 90
  · rw [if_pos h]
    have hv : (c.toNat + 32).isValidChar := Or.inl (by omega)
    have ht : (Char.ofNat (c.toNat + 32)).toNat = c.toNat + 32 :=
      char_toNat_ofNat_valid _ hv
    rw [if_neg]
    rw [ht]
    omega
  · rw [if_neg h, if_neg h]

/-! ### slugify (scripts/build.py, lines 366-372) -/

/-- Character class kept by `re.sub(r'[^\w\s-]', '', slug)`. -/
def keepSlugChar (c : Char) : Bool := isPyWordChar c || isPySpaceChar c || c == '-'

/-- `re.sub(r'\s+', '-', s)`: each maximal whitespace run becomes a single
hyphen; the flag records whether the scanner is inside a run that has
already produced its hyphen. -/
def collapseWsRuns (inRun : Bool) : Str → Str
  | [] => []
  | c :: cs =>
    if isPySpaceChar c then
      (if inRun then collapseWsRuns true cs else '-' :: collapseWsRuns true cs)
    else c :: collapseWsRuns false cs

/-- `re.sub(r'-+', '-', s)`: each maximal hyphen run becomes a single
hyphen. -/
def collapseHyphenRuns (inRun : Bool) : Str → Str
  | [] => []
  | c :: cs =>
    if c == '-' then
      (if inRun then collapseHyphenRuns true cs else '-' :: collapseHyphenRuns true cs)
    else c :: collapseHyphenRuns false cs

/-- Remove the trailing run of hyphens (the right half of
Python `str.strip('-')`). -/
def trimHyphenRight (s : Str) : Str :=
  s.foldr (fun c acc => if acc.isEmpty && c == '-' then [] else c :: acc) []

/-- Python `str.strip('-')`: remove leading and trailing hyphen runs. -/
def trimHyphenBoth (s : Str) : Str :=
  List.dropWhile (fun c => c == '-') (trimHyphenRight s)

/-- Shallow embedding of `slugify` (scripts/build.py, lines 366-372). -/
def slugify (text : Str) : Str :=
  trimHyphenBoth (collapseHyphenRuns false (collapseWsRuns false
    (List.filter keepSlugChar (toLowerStr text))))

/-- Character class of the reference definition in the spec: alphanumeric,
whitespace, or hyphen (no underscore). -/
def keepSlugCharRef (c : Char) : Bool := c.isAlphanum || isPySpaceChar c || c == '-'

/-- The spec's reference slug definition: lower-case, strip every character
that is not alphanumeric, whitespace, or hyphen, collapse whitespace runs
into single hyphens, collapse repeated hyphens, trim edge hyphens. -/
def slugifyRef (text : Str) : Str :=
  trimHyphenBoth (collapseHyphenRuns false (collapseWsRuns false
    (List.filter keepSlugCharRef (toLowerStr text))))

/-- The reference definition amended to also keep the underscore (Python's
`\w` class), which is what the code actually strips by. -/
def keepSlugCharRefU (c : Char) : Bool :=
  c.isAlphanum || c == '_' || isPySpaceChar c || c == '-'

/-- Amended reference slug definition: identical to the spec's reference
definition except that the underscore is also kept. -/
def slugifyRefU (text : Str) : Str :=
  trimHyphenBoth (collapseHyphenRuns false (collapseWsRuns false
    (List.filter keepSlugCharRefU (toLowerStr text))))

/-! ### Properties of the slug pipeline, used for idempotence -/

theorem mem_collapseWsRuns {c : Char} :
    ∀ (b : Bool) (l : Str), c ∈ collapseWsRuns b l →
      c = '-' ∨ (c ∈ l ∧ isPySpaceChar c = false) := by
  intro b l
  induction l generalizing b with
  | nil => intro h; simp [collapseWsRuns] at h
  | cons a as ih =>
    intro h
    by_cases ha : isPySpaceChar a = true
    · rw [collapseWsRuns, if_pos ha] at h
      cases b with
      | true =>
        rcases ih true h with h1 | ⟨h2, h3⟩
        · exact Or.inl h1
        · exact Or.inr ⟨List.mem_cons_of_mem a h2, h3⟩
      | false =>
        rcases List.mem_cons.mp h with h1 | h1
        · exact Or.inl h1
        · rcases ih true h1 with h2 | ⟨h2, h3⟩
          · exact Or.inl h2
          · exact Or.inr ⟨List.mem_cons_of_mem a h2, h3⟩
    · rw [collapseWsRuns, if_neg ha] at h
      rcases List.mem_cons.mp h with h1 | h1
      · subst h1
        exact Or.inr ⟨List.mem_cons_self _ _, by simpa using ha⟩
      · rcases ih false h1 with h2 | ⟨h2, h3⟩
        · exact Or.inl h2
        · exact Or.inr ⟨List.mem_cons_of_mem a h2, h3⟩

theorem mem_collapseHyphenRuns {c : Char} :
    ∀ (b : Bool) (l : Str), c ∈ collapseHyphenRuns b l → c = '-' ∨ c ∈ l := by
  intro b l
  induction l generalizing b with
  | nil => intro h; simp [collapseHyphenRuns] at h
  | cons a as ih =>
    intro h
    by_cases ha : (a == '-') = true
    · rw [collapseHyphenRuns, if_pos ha] at h
      cases b with
      | true =>
        rcases ih true h with h1 | h1
        · exact Or.inl h1
        · exact Or.inr (List.mem_cons_of_mem a h1)
      | false =>
        rcases List.mem_cons.mp h with h1 | h1
        · exact Or.inl h1
        · rcases ih true h1 with h2 | h2
          · exact Or.inl h2
          · exact Or.inr (List.mem_cons_of_mem a h2)
    · rw [collapseHyphenRuns, if_neg ha] at h
      rcases List.mem_cons.mp h with h1 | h1
      · subst h1; exact Or.inr (List.mem_cons_self _ _)
      · rcases ih false h1 with h2 | h2
        · exact Or.inl h2
        · exact Or.inr (List.mem_cons_of_mem a h2)

theorem trimHyphenRight_eq_append (s : Str) :
    ∃ t, s = trimHyphenRight s ++ t := by
  induction s with
  | nil => exact ⟨[], rfl⟩
  | cons c cs ih =>
    obtain ⟨t, ht⟩ := ih
    show ∃ u, c :: cs =
      (if (trimHyphenRight cs).isEmpty && c == '-' then []
       else c :: trimHyphenRight cs) ++ u
    by_cases h : ((trimHyphenRight cs).isEmpty && c == '-') = true
    · exact ⟨c :: cs, by rw [if_pos h]; rfl⟩
    · exact ⟨t, by rw [if_neg h]; simpa using ht⟩

theorem dropWhile_eq_append (p : Char → Bool) (s : Str) :
    ∃ t, s = t ++ List.dropWhile p s := by
  induction s with
  | nil => exact ⟨[], rfl⟩
  | cons c cs ih =>
    by_cases h : p c = true
    · obtain ⟨t, ht⟩ := ih
      refine ⟨c :: t, ?_⟩
      rw [List.dropWhile, h]
      simpa using ht
    · refine ⟨[], ?_⟩
      have hf : p c = false := by
        cases hpc : p c with
        | true => exact absurd hpc h
        | false => rfl
      simp [List.dropWhile, hf]

theorem mem_trimHyphenBoth {c : Char} {s : Str} (h : c ∈ trimHyphenBoth s) :
    c ∈ s := by
  obtain ⟨t2, ht2⟩ := dropWhile_eq_append (fun c => c == '-') (trimHyphenRight s)
  obtain ⟨t, ht⟩ := trimHyphenRight_eq_append s
  have h1 : c ∈ trimHyphenRight s := by
    rw [ht2]
    exact List.mem_append_right _ h
  rw [ht]
  exact List.mem_append_left _ h1

/-- Every character of a slug is a hyphen or a lower-case-fixed word
character taken from the lower-cased input. -/
theorem mem_slugify {c : Char} {s : Str} (h : c ∈ slugify s) :
    c = '-' ∨ (isPyWordChar c = true ∧ isPySpaceChar c = false ∧
      Char.toLower c = c) := by
  have h1 := mem_trimHyphenBoth h
  rcases mem_collapseHyphenRuns _ _ h1 with h2 | h2
  · exact Or.inl h2
  rcases mem_collapseWsRuns _ _ h2 with h3 | ⟨h3, hns⟩
  · exact Or.inl h3
  have h4 := List.mem_filter.mp h3
  have hkeep : keepSlugChar c = true := h4.2
  have hmem : c ∈ toLowerStr s := h4.1
  obtain ⟨c0, _, hc0⟩ := List.mem_map.mp hmem
  have hfix : Char.toLower c = c := by rw [← hc0, toLower_idem]
  by_cases hc : c = '-'
  · exact Or.inl hc
  have hword : isPyWordChar c = true := by
    rcases Bool.or_eq_true _ _ |>.mp hkeep with h5 | h5
    · rcases Bool.or_eq_true _ _ |>.mp h5 with h6 | h6
      · exact h6
      · rw [h6] at hns; simp at hns
    · exact absurd (beq_iff_eq.mp h5) hc
  exact Or.inr ⟨hword, hns, hfix⟩

/-- Is the first character a hyphen? -/
def headIsHyphen : Str → Bool
  | [] => false
  | c :: _ => c == '-'

/-- Is the last character a hyphen? -/
def lastIsHyphen : Str → Bool
  | [] => false
  | [c] => c == '-'
  | _ :: c2 :: cs => lastIsHyphen (c2 :: cs)

/-- Does the string contain two adjacent hyphens? -/
def hasAdjHH : Str → Bool
  | a :: b :: cs => (a == '-' && b == '-') || hasAdjHH (b :: cs)
  | _ => false

theorem hasAdjHH_cons (c : Char) (l : Str) :
    hasAdjHH (c :: l) = (((c == '-') && headIsHyphen l) || hasAdjHH l) := by
  cases l with
  | nil => simp [hasAdjHH, headIsHyphen]
  | cons x xs => simp [hasAdjHH, headIsHyphen]

theorem lastIsHyphen_cons (c : Char) (l : Str) :
    lastIsHyphen (c :: l) = (if l.isEmpty then c == '-' else lastIsHyphen l) := by
  cases l with
  | nil => simp [lastIsHyphen, List.isEmpty]
  | cons x xs => simp [lastIsHyphen, List.isEmpty]

theorem hasAdjHH_tail {c : Char} {l : Str} (h : hasAdjHH (c :: l) = false) :
    hasAdjHH l = false := by
  rw [hasAdjHH_cons] at h
  exact (Bool.or_eq_false_iff.mp h).2

theorem hasAdjHH_suffix : ∀ (a b : Str), hasAdjHH (a ++ b) = false →
    hasAdjHH b = false := by
  intro a
  induction a with
  | nil => intro b h; exact h
  | cons x xs ih => intro b h; exact ih b (hasAdjHH_tail h)

theorem headIsHyphen_append (a b : Str) (ha : a ≠ []) :
    headIsHyphen (a ++ b) = headIsHyphen a := by
  cases a with
  | nil => exact absurd rfl ha
  | cons x xs => simp [headIsHyphen]

theorem hasAdjHH_of_append {a b : Str} (h : hasAdjHH (a ++ b) = false) :
    hasAdjHH a = false := by
  induction a with
  | nil => rfl
  | cons x xs ih =>
    rw [List.cons_append, hasAdjHH_cons] at h
    rcases Bool.or_eq_false_iff.mp h with ⟨h1, h2⟩
    rw [hasAdjHH_cons, Bool.or_eq_false_iff]
    refine ⟨?_, ih h2⟩
    cases hxs : xs with
    | nil => simp [headIsHyphen]
    | cons y ys =>
      rw [hxs] at h1
      rw [headIsHyphen_append (y :: ys) b (by simp)] at h1
      exact h1

theorem lastIsHyphen_append {a b : Str} (h : lastIsHyphen (a ++ b) = false) :
    lastIsHyphen b = false := by
  induction a with
  | nil => exact h
  | cons x xs ih =>
    rw [List.cons_append, lastIsHyphen_cons] at h
    by_cases he : (xs ++ b).isEmpty = true
    · have hb : b = [] := by
        rcases List.append_eq_nil.mp (List.isEmpty_iff.mp he) with ⟨_, hb⟩
        exact hb
      rw [hb]
      rfl
    · rw [if_neg he] at h
      exact ih h

theorem collapseHyphenRuns_head_true (l : Str) :
    headIsHyphen (collapseHyphenRuns true l) = false := by
  induction l with
  | nil => rfl
  | cons c cs ih =>
    by_cases hc : (c == '-') = true
    · rw [collapseHyphenRuns, if_pos hc, if_pos rfl]
      exact ih
    · rw [collapseHyphenRuns, if_neg hc]
      simp only [headIsHyphen]
      exact Bool.eq_false_iff.mpr hc

theorem collapseHyphenRuns_no_adj : ∀ (l : Str) (b : Bool),
    hasAdjHH (collapseHyphenRuns b l) = false := by
  intro l
  induction l with
  | nil => intro b; rfl
  | cons c cs ih =>
    intro b
    by_cases hc : (c == '-') = true
    · rw [collapseHyphenRuns, if_pos hc]
      cases b with
      | true => exact ih true
      | false =>
        rw [if_neg (by simp)]
        rw [hasAdjHH_cons, Bool.or_eq_false_iff]
        exact ⟨by rw [collapseHyphenRuns_head_true, Bool.and_false], ih true⟩
    · rw [collapseHyphenRuns, if_neg hc]
      rw [hasAdjHH_cons, Bool.or_eq_false_iff]
      refine ⟨?_, ih false⟩
      rw [Bool.eq_false_iff.mpr hc, Bool.false_and]

theorem collapseHyphenRuns_id : ∀ (l : Str) (b : Bool),
    hasAdjHH l = false → (b = true → headIsHyphen l = false) →
    collapseHyphenRuns b l = l := by
  intro l
  induction l with
  | nil => intro b _ _; rfl
  | cons c cs ih =>
    intro b hadj hhead
    by_cases hc : (c == '-') = true
    · cases b with
      | true =>
        have := hhead rfl
        simp only [headIsHyphen] at this
        rw [hc] at this
        exact absurd this (by simp)
      | false =>
        have hceq : c = '-' := beq_iff_eq.mp hc
        subst hceq
        rw [collapseHyphenRuns, if_pos hc, if_neg (by simp)]
        rw [hasAdjHH_cons] at hadj
        rcases Bool.or_eq_false_iff.mp hadj with ⟨h1, h2⟩
        rw [hc, Bool.true_and] at h1
        rw [ih true h2 (fun _ => h1)]
    · rw [collapseHyphenRuns, if_neg hc]
      congr 1
      exact ih false (hasAdjHH_tail hadj) (by intro h; exact absurd h (by simp))

theorem collapseWsRuns_id : ∀ (l : Str) (b : Bool),
    (∀ c ∈ l, isPySpaceChar c = false) → collapseWsRuns b l = l := by
  intro l
  induction l with
  | nil => intro b _; rfl
  | cons c cs ih =>
    intro b h
    have hc : isPySpaceChar c = false := h c (List.mem_cons_self _ _)
    rw [collapseWsRuns, if_neg (by rw [hc]; simp)]
    congr 1
    exact ih false (fun x hx => h x (List.mem_cons_of_mem _ hx))

theorem map_eq_self_of_fixed {f : Char → Char} : ∀ (l : Str),
    (∀ c ∈ l, f c = c) → l.map f = l := by
  intro l
  induction l with
  | nil => intro _; rfl
  | cons c cs ih =>
    intro h
    rw [List.map_cons, h c (List.mem_cons_self _ _),
      ih (fun x hx => h x (List.mem_cons_of_mem _ hx))]

theorem trimHyphenRight_last (l : Str) :
    lastIsHyphen (trimHyphenRight l) = false := by
  induction l with
  | nil => rfl
  | cons c cs ih =>
    show lastIsHyphen
      (if (trimHyphenRight cs).isEmpty && c == '-' then []
       else c :: trimHyphenRight cs) = false
    by_cases h : ((trimHyphenRight cs).isEmpty && c == '-') = true
    · rw [if_pos h]; rfl
    · rw [if_neg h, lastIsHyphen_cons]
      by_cases he : (trimHyphenRight cs).isEmpty = true
      · rw [if_pos he]
        cases hcc : (c == '-') with
        | false => rfl
        | true => exact absurd (by rw [he, hcc]; rfl) h
      · rw [if_neg he]
        exact ih

theorem trimHyphenRight_id {l : Str} (h : lastIsHyphen l = false) :
    trimHyphenRight l = l := by
  induction l with
  | nil => rfl
  | cons c cs ih =>
    rw [lastIsHyphen_cons] at h
    show (if (trimHyphenRight cs).isEmpty && c == '-' then []
      else c :: trimHyphenRight cs) = c :: cs
    by_cases hcs : cs = []
    · subst hcs
      have hch : (c == '-') = false := by simpa [List.isEmpty] using h
      have h0 : trimHyphenRight ([] : Str) = [] := rfl
      rw [h0]
      simp [hch]
    · have he : cs.isEmpty = false := by
        cases cs with
        | nil => exact absurd rfl hcs
        | cons _ _ => rfl
      rw [he] at h
      simp only [Bool.false_eq_true, if_false] at h
      have hcs2 := ih h
      rw [hcs2, if_neg (by rw [he]; simp)]

theorem dropWhile_hyphen_head (l : Str) :
    headIsHyphen (List.dropWhile (fun c => c == '-') l) = false := by
  induction l with
  | nil => rfl
  | cons c cs ih =>
    by_cases hc : (c == '-') = true
    · rw [List.dropWhile, hc]
      exact ih
    · rw [List.dropWhile, Bool.eq_false_iff.mpr hc]
      simp only [headIsHyphen]
      exact Bool.eq_false_iff.mpr hc

theorem dropWhile_hyphen_id {l : Str} (h : headIsHyphen l = false) :
    List.dropWhile (fun c => c == '-') l = l := by
  cases l with
  | nil => rfl
  | cons c cs =>
    simp only [headIsHyphen] at h
    rw [List.dropWhile, h]

/-- A slug has no two adjacent hyphens. -/
theorem slugify_no_adj (s : Str) : hasAdjHH (slugify s) = false := by
  have h0 : hasAdjHH (collapseHyphenRuns false (collapseWsRuns false
      (List.filter keepSlugChar (toLowerStr s)))) = false :=
    collapseHyphenRuns_no_adj _ false
  obtain ⟨t, ht⟩ := trimHyphenRight_eq_append (collapseHyphenRuns false
    (collapseWsRuns false (List.filter keepSlugChar (toLowerStr s))))
  rw [ht] at h0
  have h1 := hasAdjHH_of_append h0
  obtain ⟨t2, ht2⟩ := dropWhile_eq_append (fun c => c == '-')
    (trimHyphenRight (collapseHyphenRuns false (collapseWsRuns false
      (List.filter keepSlugChar (toLowerStr s)))))
  rw [ht2] at h1
  exact hasAdjHH_suffix _ _ h1

/-- A slug does not start with a hyphen. -/
theorem slugify_head (s : Str) : headIsHyphen (slugify s) = false :=
  dropWhile_hyphen_head _

/-- A slug does not end with a hyphen. -/
theorem slugify_last (s : Str) : lastIsHyphen (slugify s) = false := by
  have h0 : lastIsHyphen (trimHyphenRight (collapseHyphenRuns false
      (collapseWsRuns false (List.filter keepSlugChar (toLowerStr s))))) = false :=
    trimHyphenRight_last _
  obtain ⟨t2, ht2⟩ := dropWhile_eq_append (fun c => c == '-')
    (trimHyphenRight (collapseHyphenRuns false (collapseWsRuns false
      (List.filter keepSlugChar (toLowerStr s)))))
  rw [ht2] at h0
  exact lastIsHyphen_append h0

/-- C6 counterexample: on the title `"a_b"` the code keeps the underscore
(Python's `\w` class), while the spec's reference definition (strip every
character that is not alphanumeric, whitespace, or hyphen) removes it, so
`slugify` does not equal the reference definition. -/
theorem C6_slugify_counterexample :
    slugify (("a_b").toList) = ("a_b").toList ∧
    slugifyRef (("a_b").toList) = ("ab").toList ∧
    ("a_b").toList ≠ ("ab").toList := by
  refine ⟨by decide, by decide, by decide⟩

/-- C6 amended: `slugify` equals the reference definition once that
definition also keeps the underscore (Python's `\w` class); the concrete
example and idempotence from the claim hold as stated. -/
theorem C6_slugify_amended :
    (∀ s : Str, slugify s = slugifyRefU s) ∧
    slugify (("Hello, World! 2024").toList) = ("hello-world-2024").toList ∧
    (∀ s : Str, slugify (slugify s) = slugify s) := by
  refine ⟨?_, by decide, ?_⟩
  · intro s
    have hf : List.filter keepSlugChar (toLowerStr s) =
        List.filter keepSlugCharRefU (toLowerStr s) := by
      apply List.filter_congr
      intro c _
      simp [keepSlugChar, keepSlugCharRefU, isPyWordChar, Bool.or_assoc]
    unfold slugify slugifyRefU
    rw [hf]
  · intro s
    have hmem := fun c (hc : c ∈ slugify s) => mem_slugify hc
    have h1 : toLowerStr (slugify s) = slugify s := by
      apply map_eq_self_of_fixed
      intro c hc
      rcases hmem c hc with h | ⟨_, _, hfix⟩
      · subst h; decide
      · exact hfix
    have h2 : List.filter keepSlugChar (slugify s) = slugify s := by
      rw [List.filter_eq_self]
      intro c hc
      rcases hmem c hc with h | ⟨hw, _, _⟩
      · subst h; decide
      · simp [keepSlugChar, hw]
    have h3 : collapseWsRuns false (slugify s) = slugify s := by
      apply collapseWsRuns_id
      intro c hc
      rcases hmem c hc with h | ⟨_, hns, _⟩
      · subst h; decide
      · exact hns
    have h4 : collapseHyphenRuns false (slugify s) = slugify s := by
      apply collapseHyphenRuns_id
      · exact slugify_no_adj s
      · intro h; exact absurd h (by simp)
    have h5 : trimHyphenRight (slugify s) = slugify s :=
      trimHyphenRight_id (slugify_last s)
    have h6 : List.dropWhile (fun c => c == '-') (slugify s) = slugify s :=
      dropWhile_hyphen_id (slugify_head s)
    show trimHyphenBoth (collapseHyphenRuns false (collapseWsRuns false
      (List.filter keepSlugChar (toLowerStr (slugify s))))) = slugify s
    rw [h1, h2, h3, h4]
    show List.dropWhile (fun c => c == '-') (trimHyphenRight (slugify s)) = slugify s
    rw [h5, h6]

/-! ### parse_date_for_sort (scripts/build.py, lines 456-473) -/

/-- Result of Python `datetime(year, month, day)`: a plain date triple. -/
structure PyDate where
  year : Nat
  month : Nat
  day : Nat
deriving DecidableEq, Repr

/-- Number denoted by a digit string (Python `int`). -/
def natOfDigits (l : Str) : Nat :=
  l.foldl (fun acc c => acc * 10 + (c.toNat - 48)) 0

/-- Days in a month, with Gregorian leap years (as Python `datetime`). -/
def daysInMonth (y m : Nat) : Nat :=
  if m = 2 then
    (if (y % 4 = 0 ∧ y % 100 ≠ 0) ∨ y % 400 = 0 then 29 else 28)
  else if m = 4 ∨ m = 6 ∨ m = 9 ∨ m = 11 then 30 else 31

/-- Python `datetime(y, m, d)`; `none` models the `ValueError` raised on
out-of-range components. -/
def mkDatetime (y m d : Nat) : Option PyDate :=
  if 1 ≤ y ∧ y ≤ 9999 ∧ 1 ≤ m ∧ m ≤ 12 ∧ 1 ≤ d ∧ d ≤ daysInMonth y m then
    some ⟨y, m, d⟩
  else none

/-- The month-name table of `parse_date_for_sort`; unknown names give 1
(`months.get(..., 1)` via the explicit default in the code). -/
def monthNum (w : Str) : Nat :=
  if w = ("january").toList then 1
  else if w = ("february").toList then 2
  else if w = ("march").toList then 3
  else if w = ("april").toList then 4
  else if w = ("may").toList then 5
  else if w = ("june").toList then 6
  else if w = ("july").toList then 7
  else if w = ("august").toList then 8
  else if w = ("september").toList then 9
  else if w = ("october").toList then 10
  else if w = ("november").toList then 11
  else if w = ("december").toList then 12
  else 1

/-- Four digits at the start of the string (`\d{4}`, the final regex
element; trailing characters are unconstrained because the pattern is
unanchored). -/
def yearAt : Str → Option Str
  | a :: b :: c :: d :: _ =>
    if a.isDigit && b.isDigit && c.isDigit && d.isDigit then some [a, b, c, d]
    else none
  | _ => none

/-- Optional comma (`,?`): taken when present. -/
def dropComma : Str → Str
  | [] => []
  | c :: cs => if c == ',' then cs else c :: cs

/-- The regex tail `,?\s*(\d{4})` applied at a position. -/
def dateTail (after : Str) : Option Str :=
  yearAt (List.dropWhile isPySpaceChar (dropComma after))

/-- Backtracking for the optional day group `(\d+)?`: `rtaken` is the
(reversed) digit run currently assigned to the group, tried greedily from
longest to absent, giving back one digit at a time to the remainder. -/
def tryDigitsR : Str → Str → Option (Option Str × Str)
  | rtaken, rest =>
    match dateTail rest with
    | some y => some ((if rtaken.isEmpty then none else some rtaken.reverse), y)
    | none =>
      match rtaken with
      | [] => none
      | c :: rt => tryDigitsR rt (c :: rest)

/-- Backtracking for the word group `(\w+)`: `rword` is the (reversed)
word-character run assigned to the group, tried greedily from longest down
to a single character; the continuation is `\s*(\d+)?,?\s*(\d{4})`. -/
def tryWordR : Str → Str → Option (Str × Option Str × Str)
  | rword, rest =>
    match
      tryDigitsR
        (List.takeWhile Char.isDigit (List.dropWhile isPySpaceChar rest)).reverse
        (List.dropWhile Char.isDigit (List.dropWhile isPySpaceChar rest)) with
    | some (g2, y) => some (rword.reverse, g2, y)
    | none =>
      match rword with
      | [] => none
      | [_] => none
      | c :: rt => tryWordR rt (c :: rest)

/-- Match of `(\w+)\s*(\d+)?,?\s*(\d{4})` anchored at the current
position: the word group must start here. -/
def matchDateAt (s : Str) : Option (Str × Option Str × Str) :=
  let w := List.takeWhile isPyWordChar s
  if w.isEmpty then none
  else tryWordR w.reverse (List.dropWhile isPyWordChar s)

/-- `re.search` of the date pattern: leftmost matching position wins. -/
def searchDate : Str → Option (Str × Option Str × Str)
  | [] => none
  | c :: cs =>
    match matchDateAt (c :: cs) with
    | some r => some r
    | none => searchDate cs

/-- Shallow embedding of `parse_date_for_sort` (scripts/build.py, lines
456-473).  `none` models an uncaught `ValueError` from the `datetime`
constructor; the regex-miss fallback is the epoch 1970-01-01. -/
def parse_date_for_sort (date_str : Str) : Option PyDate :=
  match searchDate (toLowerStr date_str) with
  | some (g1, g2, y) =>
    mkDatetime (natOfDigits y) (monthNum g1)
      (match g2 with | some d => natOfDigits d | none => 1)
  | none => some ⟨1970, 1, 1⟩

/-- C5 counterexample: `"Foobar 2024"` is not of the shape
`Month [Day,] Year` with a month name, yet the parser returns
2024-01-01 rather than the epoch-earliest value, because the regex
matches any word and `months.get` defaults the month to January. -/
theorem C5_date_counterexample :
    parse_date_for_sort (("Foobar 2024").toList) =
      some { year := 2024, month := 1, day := 1 } ∧
    ({ year := 2024, month := 1, day := 1 } : PyDate) ≠
      { year := 1970, month := 1, day := 1 } := by
  exact ⟨by decide, by decide⟩

/-- C5 amended: the epoch fallback applies exactly when the regex
`(\w+)\s*(\d+)?,?\s*(\d{4})` finds no match in the lower-cased string; a
matching string with an unknown month word is treated as January of the
matched year (e.g. `"Foobar 2024"` gives 2024-01-01), and a matching
string with an out-of-range day makes the `datetime` constructor raise
(modelled as `none`).  The spec's own examples parse as claimed. -/
theorem C5_date_amended :
    (∀ s : Str, searchDate (toLowerStr s) = none →
      parse_date_for_sort s = some { year := 1970, month := 1, day := 1 }) ∧
    parse_date_for_sort (("March 2024").toList) =
      some { year := 2024, month := 3, day := 1 } ∧
    parse_date_for_sort (("January 15, 2023").toList) =
      some { year := 2023, month := 1, day := 15 } ∧
    parse_date_for_sort (("not-a-date").toList) =
      some { year := 1970, month := 1, day := 1 } ∧
    parse_date_for_sort (("Foobar 2024").toList) =
      some { year := 2024, month := 1, day := 1 } ∧
    parse_date_for_sort (("January 99, 2024").toList) = none := by
  refine ⟨?_, by decide, by decide, by decide, by decide, by decide⟩
  intro s h
  unfold parse_date_for_sort
  rw [h]

/-- C5 witness: the no-match branch of the amended theorem applied to the
concrete unparsable string `"not-a-date"`. -/
theorem C5_date_amended_witness :
    searchDate (toLowerStr (("not-a-date").toList)) = none ∧
    parse_date_for_sort (("not-a-date").toList) =
      some { year := 1970, month := 1, day := 1 } :=
  ⟨by decide, C5_date_amended.1 (("not-a-date").toList) (by decide)⟩

/-! ### HTML escaping and the project card renderers -/

/-- Fuel-indexed scanner for Python `str.replace` (all occurrences, left to
right, non-overlapping); the fuel is the input length, enough because each
step consumes at least one character (patterns used are nonempty). -/
def replaceAllF (pat rep : Str) : Nat → Str → Str
  | 0, s => s
  | _ + 1, [] => []
  | fuel + 1, c :: cs =>
    if isStart pat (c :: cs) then
      (if pat.isEmpty then c :: replaceAllF pat rep fuel cs
       else rep ++ replaceAllF pat rep fuel (List.drop pat.length (c :: cs)))
    else c :: replaceAllF pat rep fuel cs

/-- Python `str.replace(pat, rep)`. -/
def replaceAll (pat rep s : Str) : Str := replaceAllF pat rep s.length s

/-- Python `html.escape(s, quote=True)`: the five sequential replacements
of `&`, `<`, `>`, `"` and the apostrophe, in that order. -/
def escapeQ (s : Str) : Str :=
  replaceAll [Char.ofNat 39] (("&#x27;").toList)
    (replaceAll (("\"").toList) (("&quot;").toList)
      (replaceAll ((">").toList) (("&gt;").toList)
        (replaceAll (("<").toList) (("&lt;").toList)
          (replaceAll (("&").toList) (("&amp;").toList) s))))

/-- Shallow embedding of `escape_html` (scripts/build.py, lines 116-120):
falsy (empty) input gives the empty string. -/
def escape_html (s : Str) : Str := if s.isEmpty then [] else escapeQ s

/-- Python `capitalize` helper (scripts/build.py, lines 122-124). -/
def capitalize (s : Str) : Str :=
  match s with
  | [] => []
  | c :: cs => c.toUpper :: cs

/-- Python `a or b` for an optional string `a`: the default is used when
the field is absent or empty (falsy). -/
def pyOr (a : Option Str) (b : Str) : Str :=
  match a with
  | some s => if s.isEmpty then b else s
  | none => b

/-- A record from `projects.json`; `none` models an absent key. -/
structure ProjectItem where
  title : Option Str := none
  description : Option Str := none
  status : Option Str := none
  tech : List Str := []
  image : Option Str := none
  url : Option Str := none

/-- The conditional `View` link block of `generate_project_card`. -/
def projectLinkBlock (url : Str) : Str :=
  ("\n            <div class=\"uniform-card__links\">\n              <a href=\"").toList ++
  escape_html url ++
  ("\" class=\"uniform-card__link\" target=\"_blank\" rel=\"noopener\">View</a>\n            </div>").toList

/-- Shallow embedding of `generate_project_card` (scripts/build.py, lines
192-220).  `get_default_project_image()` returns a random member of a fixed
three-element list; the chosen value is passed in as `default_image`. -/
def generate_project_card (item : ProjectItem) (default_image : Str) : Str :=
  let title := escape_html (item.title.getD (("Untitled Project").toList))
  let description := escape_html (item.description.getD [])
  let status := item.status.getD (("active").toList)
  let tech := item.tech
  let image := pyOr item.image default_image
  let url := item.url.getD (("#").toList)
  let status_class :=
    if status = ("active").toList then ("uniform-card__tag--active").toList
    else ("uniform-card__tag--completed").toList
  ("\n        <article class=\"uniform-card\">\n          <div class=\"uniform-card__image\">\n            <img src=\"").toList ++
  escape_html image ++ ("\" alt=\"").toList ++ title ++
  ("\" loading=\"lazy\">\n          </div>\n          <div class=\"uniform-card__content\">\n            <span class=\"uniform-card__tag ").toList ++
  status_class ++ ("\">").toList ++ capitalize status ++
  ("</span>\n            <h3 class=\"uniform-card__title\">\n              <a href=\"").toList ++
  escape_html url ++ ("\" target=\"_blank\" rel=\"noopener\">").toList ++ title ++
  ("</a>\n            </h3>\n            <p class=\"uniform-card__description\">").toList ++
  description ++
  ("</p>\n            <span class=\"uniform-card__meta\">").toList ++
  List.intercalate ((", ").toList) tech ++
  ("</span>\n            ").toList ++
  (if url ≠ ("#").toList then projectLinkBlock url else []) ++
  ("\n          </div>\n        </article>").toList

/-- The optional image block of `generate_project_masonry_card`. -/
def masonryImageBlock (image title : Str) : Str :=
  ("\n            <div class=\"masonry__image\">\n              <img src=\"").toList ++
  escape_html image ++ ("\" alt=\"").toList ++ title ++
  ("\" loading=\"lazy\">\n            </div>").toList

/-- Shallow embedding of `generate_project_masonry_card`
(scripts/build.py, lines 431-453). -/
def generate_project_masonry_card (item : ProjectItem) : Str :=
  let title := escape_html (item.title.getD (("Untitled Project").toList))
  let description := escape_html (item.description.getD [])
  let tech := item.tech
  let url := item.url.getD (("#").toList)
  let image_html :=
    match item.image with
    | some s => if s.isEmpty then [] else masonryImageBlock s title
    | none => []
  ("\n          <article class=\"masonry__item masonry__item--medium\" data-category=\"project\">\n            ").toList ++
  image_html ++
  ("\n            <div class=\"masonry__content\">\n              <span class=\"masonry__category masonry__category--project\">My Project</span>\n              <h3 class=\"masonry__title\"><a href=\"").toList ++
  escape_html url ++ ("\" target=\"_blank\" rel=\"noopener\">").toList ++ title ++
  ("</a></h3>\n              <p class=\"masonry__description\">").toList ++
  description ++
  ("</p>\n              ").toList ++
  (if tech.isEmpty then []
   else ("<p class=\"masonry__meta\">").toList ++
     List.intercalate ((", ").toList) tech ++ ("</p>").toList) ++
  ("\n            </div>\n          </article>").toList

/-- Does `pat` occur inside `s`? -/
def containsSub (pat s : Str) : Bool := (findSub pat s).isSome

/-- C1 evidence: with a tech entry `<b>`, both project renderers
interpolate the comma-joined tech list verbatim — the raw `<b>` appears in
the fragment and its escaped form does not — while the other fields go
through `escape_html`; the tech list is joined with a comma and a space. -/
theorem C1_project_tech_unescaped :
    containsSub (("<span class=\"uniform-card__meta\"><b></span>").toList)
      (generate_project_card
        { title := some (("T").toList), tech := [("<b>").toList] }
        (("img").toList)) = true ∧
    containsSub (("&lt;b&gt;").toList)
      (generate_project_card
        { title := some (("T").toList), tech := [("<b>").toList] }
        (("img").toList)) = false ∧
    containsSub (("<p class=\"masonry__meta\"><b></p>").toList)
      (generate_project_masonry_card
        { title := some (("T").toList), tech := [("<b>").toList] }) = true ∧
    containsSub (("&lt;b&gt;").toList)
      (generate_project_masonry_card
        { title := some (("T").toList), tech := [("<b>").toList] }) = false ∧
    containsSub (("<span class=\"uniform-card__meta\">a, b</span>").toList)
      (generate_project_card
        { title := some (("T").toList),
          tech := [("a").toList, ("b").toList] }
        (("img").toList)) = true ∧
    escape_html (("<b>").toList) = ("&lt;b&gt;").toList := by
  refine ⟨by decide, by decide, by decide, by decide, by decide, by decide⟩

/-! ### fetch_metadata (scripts/build.py, lines 36-114) -/

/-- Model of Python `html.unescape` restricted to the predefined XML
entities (`&amp;` `&lt;` `&gt;` `&quot;` `&apos;` `&#x27;` `&#39;`): scan
left to right, replace an entity and continue after it.  The code applies
the real `html.unescape`; the claims only need that the same function is
(or is not) applied to each extracted field, plus its value on concrete
entity strings, which this model shares. -/
def pyUnescapeF : Nat → Str → Str
  | 0, s => s
  | _ + 1, [] => []
  | fuel + 1, c :: cs =>
    if c = '&' then
      if isStart (("amp;").toList) cs then
        '&' :: pyUnescapeF fuel (List.drop 4 cs)
      else if isStart (("lt;").toList) cs then
        '<' :: pyUnescapeF fuel (List.drop 3 cs)
      else if isStart (("gt;").toList) cs then
        '>' :: pyUnescapeF fuel (List.drop 3 cs)
      else if isStart (("quot;").toList) cs then
        Char.ofNat 34 :: pyUnescapeF fuel (List.drop 5 cs)
      else if isStart (("apos;").toList) cs then
        Char.ofNat 39 :: pyUnescapeF fuel (List.drop 5 cs)
      else if isStart (("#x27;").toList) cs then
        Char.ofNat 39 :: pyUnescapeF fuel (List.drop 5 cs)
      else if isStart (("#39;").toList) cs then
        Char.ofNat 39 :: pyUnescapeF fuel (List.drop 4 cs)
      else c :: pyUnescapeF fuel cs
    else c :: pyUnescapeF fuel cs

/-- Python `html.unescape` (model, see `pyUnescapeF`). -/
def pyUnescape (s : Str) : Str := pyUnescapeF s.length s

/-- Right half of Python `str.strip()`. -/
def pyStripRight (s : Str) : Str :=
  s.foldr (fun c acc => if acc.isEmpty && isPySpaceChar c then [] else c :: acc) []

/-- Python `str.strip()`: remove leading and trailing whitespace. -/
def pyStrip (s : Str) : Str :=
  List.dropWhile isPySpaceChar (pyStripRight s)

/-- Scheme and netloc of an absolute URL (model of
`urllib.parse.urlparse`, restricted to the two components the code
reads). -/
def schemeNetloc (url : Str) : Str × Str :=
  match findSub (("://").toList) url with
  | some i =>
    (List.take i url,
     List.takeWhile (fun c => ¬(c = '/' ∨ c = '?' ∨ c = '#'))
       (List.drop (i + 3) url))
  | none => ([], [])

/-- The relative-image resolution of `fetch_metadata`: an `og:image` value
beginning with `/` is made absolute with the request's scheme and host. -/
def resolveImageUrl (url imageUrl : Str) : Str :=
  if isStart (("/").toList) imageUrl then
    (schemeNetloc url).1 ++ ("://").toList ++ (schemeNetloc url).2 ++ imageUrl
  else imageUrl

/-- Characters of a YouTube video id (`[a-zA-Z0-9_-]`). -/
def isYtIdChar (c : Char) : Bool := c.isAlphanum || c == '_' || c == '-'

/-- `re.search(r'(?:v=|youtu\.be/)([a-zA-Z0-9_-]+)', url)`: leftmost
position where either prefix is followed by at least one id character. -/
def ytSearch : Str → Option Str
  | [] => none
  | c :: cs =>
    if isStart (("v=").toList) (c :: cs) &&
        !(List.takeWhile isYtIdChar (List.drop 2 (c :: cs))).isEmpty then
      some (List.takeWhile isYtIdChar (List.drop 2 (c :: cs)))
    else if isStart (("youtu.be/").toList) (c :: cs) &&
        !(List.takeWhile isYtIdChar (List.drop 9 (c :: cs))).isEmpty then
      some (List.takeWhile isYtIdChar (List.drop 9 (c :: cs)))
    else ytSearch cs

/-- The deterministic YouTube thumbnail URL built from a video id. -/
def ytThumb (id : Str) : Str :=
  ("https://img.youtube.com/vi/").toList ++ id ++ ("/maxresdefault.jpg").toList

/-- The capture groups produced by the six regex searches of
`fetch_metadata` over the fetched page; the regex engine itself is
abstracted, its captured text is the input here. -/
structure RawExtract where
  og_title : Option Str := none
  title_tag : Option Str := none
  og_desc : Option Str := none
  meta_desc : Option Str := none
  og_image : Option Str := none
  og_site : Option Str := none

/-- The metadata dictionary returned by `fetch_metadata`. -/
structure Metadata where
  title : Option Str := none
  description : Option Str := none
  image : Option Str := none
  site_name : Option Str := none
deriving DecidableEq

/-- Shallow embedding of the extraction half of `fetch_metadata`
(scripts/build.py, lines 55-110): fallback precedence, entity unescaping,
relative-image resolution and the YouTube thumbnail override, applied to
the captured groups. -/
def fetch_metadata_extract (url : Str) (r : RawExtract) : Metadata :=
  let title :=
    match r.og_title with
    | some t => some (pyUnescape t)
    | none =>
      match r.title_tag with
      | some t => some (pyUnescape (pyStrip t))
      | none => none
  let description :=
    match r.og_desc with
    | some d => some (pyUnescape d)
    | none =>
      match r.meta_desc with
      | some d => some (pyUnescape d)
      | none => none
  let image0 :=
    match r.og_image with
    | some u => some (resolveImageUrl url u)
    | none => none
  let site_name :=
    match r.og_site with
    | some s1 => some (pyUnescape s1)
    | none => none
  let image :=
    if containsSub (("youtube.com/watch").toList) url ||
        containsSub (("youtu.be").toList) url then
      match ytSearch url with
      | some id => some (ytThumb id)
      | none => image0
    else image0
  { title := title, description := description, image := image,
    site_name := site_name }

/-- C4 counterexample: an `og:image` capture containing `&amp;` is
returned verbatim — the image field is never passed through
`html.unescape`, unlike title, description and site_name. -/
theorem C4_image_not_unescaped :
    (fetch_metadata_extract (("http://example.com/a").toList)
        { og_image := some (("x&amp;y").toList) }).image =
      some (("x&amp;y").toList) ∧
    pyUnescape (("x&amp;y").toList) = ("x&y").toList ∧
    (fetch_metadata_extract (("http://example.com/a").toList)
        { og_image := some (("x&amp;y").toList) }).image ≠
      some (pyUnescape (("x&amp;y").toList)) := by
  refine ⟨by decide, by decide, by decide⟩

/-- C4 amended: the title, description and site_name fields are always the
unescape of their raw captured text (with the documented fallbacks, and a
strip on the `<title>` fallback), while the image field is the raw
`og:image` capture, only resolved against the request URL when it starts
with `/`, or the YouTube thumbnail override — never unescaped. -/
theorem C4_unescape_amended (url : Str) (r : RawExtract) :
    (fetch_metadata_extract url r).title =
      (match r.og_title with
       | some t => some (pyUnescape t)
       | none => Option.map (fun t => pyUnescape (pyStrip t)) r.title_tag) ∧
    (fetch_metadata_extract url r).description =
      (match r.og_desc with
       | some d => some (pyUnescape d)
       | none => Option.map pyUnescape r.meta_desc) ∧
    (fetch_metadata_extract url r).site_name = Option.map pyUnescape r.og_site ∧
    ((containsSub (("youtube.com/watch").toList) url ||
        containsSub (("youtu.be").toList) url) = false →
      (fetch_metadata_extract url r).image =
        Option.map (resolveImageUrl url) r.og_image) := by
  refine ⟨?_, ?_, ?_, ?_⟩
  · cases hot : r.og_title <;> cases htt : r.title_tag <;>
      simp [fetch_metadata_extract, hot, htt]
  · cases hod : r.og_desc <;> cases hmd : r.meta_desc <;>
      simp [fetch_metadata_extract, hod, hmd]
  · cases hos : r.og_site <;> simp [fetch_metadata_extract, hos]
  · intro h
    cases hoi : r.og_image with
    | none =>
      unfold fetch_metadata_extract
      rw [hoi, h]
      simp
    | some v =>
      unfold fetch_metadata_extract
      rw [hoi, h]
      simp

/-- C4 witness: the amended theorem applied to a concrete page whose
og:title and og:image both contain `&amp;`; the title comes back
unescaped, the image does not. -/
theorem C4_unescape_amended_witness :
    (fetch_metadata_extract (("http://example.com/a").toList)
        { og_title := some (("A&amp;B").toList),
          og_image := some (("x&amp;y").toList) }).title =
      some (("A&B").toList) ∧
    (fetch_metadata_extract (("http://example.com/a").toList)
        { og_title := some (("A&amp;B").toList),
          og_image := some (("x&amp;y").toList) }).image =
      some (("x&amp;y").toList) := by
  obtain ⟨h1, _, _, h4⟩ := C4_unescape_amended (("http://example.com/a").toList)
    { og_title := some (("A&amp;B").toList),
      og_image := some (("x&amp;y").toList) }
  exact ⟨by rw [h1]; decide, by rw [h4 (by decide)]; decide⟩

/-! ### markdown_to_html (scripts/build.py, lines 271-333) -/

/-- `text.replace('\r\n', '\n')`. -/
def normalizeNl : Str → Str
  | [] => []
  | [c] => [c]
  | c :: c2 :: cs =>
    if c = '\r' ∧ c2 = '\n' then '\n' :: normalizeNl cs
    else c :: normalizeNl (c2 :: cs)

/-- The three sequential escapes of `&`, `<`, `>` (line 279). -/
def mdEscape (s : Str) : Str :=
  replaceAll ((">").toList) (("&gt;").toList)
    (replaceAll (("<").toList) (("&lt;").toList)
      (replaceAll (("&").toList) (("&amp;").toList) s))

/-- Split a text into its lines (the view a `re.MULTILINE` pattern has). -/
def splitOnNl : Str → List Str
  | [] => [[]]
  | c :: cs =>
    match splitOnNl cs with
    | [] => [[c]]
    | h :: t => if c = '\n' then [] :: h :: t else (c :: h) :: t

/-- Rejoin lines with newlines. -/
def joinNl : List Str → Str
  | [] => []
  | [l] => l
  | l :: l2 :: ls => l ++ '\n' :: joinNl (l2 :: ls)

/-- Apply a line transformation to every line, as a `re.MULTILINE`
substitution anchored with `^...$` does. -/
def mapLines (f : Str → Str) (s : Str) : Str := joinNl ((splitOnNl s).map f)

/-- One line of `re.sub(r'^&gt;\s?(.*)$', r'<blockquote>\1</blockquote>')`. -/
def blockquoteLine (l : Str) : Str :=
  if isStart (("&gt;").toList) l then
    let rest := List.drop 4 l
    let rest2 :=
      match rest with
      | c :: cs => if isPySpaceChar c then cs else c :: cs
      | [] => []
    ("<blockquote>").toList ++ rest2 ++ ("</blockquote>").toList
  else l

/-- The blockquote stage: per-line rewrite, then merging of adjacent
blockquote lines (lines 282-284). -/
def blockquotePass (s : Str) : Str :=
  replaceAll (("</blockquote>\n<blockquote>").toList) (("\n").toList)
    (mapLines blockquoteLine s)

/-- Heading open/close tags for level `k`. -/
def headerTags (k : Nat) : Str × Str :=
  match k with
  | 1 => (("<h1>").toList, ("</h1>").toList)
  | 2 => (("<h2>").toList, ("</h2>").toList)
  | 3 => (("<h3>").toList, ("</h3>").toList)
  | 4 => (("<h4>").toList, ("</h4>").toList)
  | 5 => (("<h5>").toList, ("</h5>").toList)
  | _ => (("<h6>").toList, ("</h6>").toList)

/-- `^#{k}\s+(.*)$` on one line: `k` hashes, at least one whitespace
character, group is the rest after the (greedy) whitespace run. -/
def headerLineK (k : Nat) (l : Str) : Option Str :=
  if isStart (List.replicate k '#') l then
    match List.drop k l with
    | c :: cs =>
      if isPySpaceChar c then some (List.dropWhile isPySpaceChar (c :: cs))
      else none
    | [] => none
  else none

/-- The six sequential header substitutions (lines 287-292): longest
prefix first, six hashes before one. -/
def headerLine (l : Str) : Str :=
  match headerLineK 6 l with
  | some r => (headerTags 6).1 ++ r ++ (headerTags 6).2
  | none =>
  match headerLineK 5 l with
  | some r => (headerTags 5).1 ++ r ++ (headerTags 5).2
  | none =>
  match headerLineK 4 l with
  | some r => (headerTags 4).1 ++ r ++ (headerTags 4).2
  | none =>
  match headerLineK 3 l with
  | some r => (headerTags 3).1 ++ r ++ (headerTags 3).2
  | none =>
  match headerLineK 2 l with
  | some r => (headerTags 2).1 ++ r ++ (headerTags 2).2
  | none =>
  match headerLineK 1 l with
  | some r => (headerTags 1).1 ++ r ++ (headerTags 1).2
  | none => l

/-- Does the whole string consist of copies of `c`? -/
def allChar (c : Char) (l : Str) : Bool := l.all (fun x => x == c)

/-- `^(\*{3,}|-{3,}|_{3,})$` on one line (line 295). -/
def hrLine (l : Str) : Str :=
  if 3 ≤ l.length && (allChar '*' l || allChar '-' l || allChar '_' l) then
    ("<hr>").toList
  else l

/-- Content characters of the lazy groups: `.` without `re.DOTALL` matches
anything except a newline. -/
def notNl (c : Char) : Bool := !(c == '\n')

/-- Continuation of the lazy content scan: stop at the first position
where the closing delimiter starts, otherwise extend the (possibly empty)
remaining content one admissible character at a time. -/
def fcGo (P : Char → Bool) (delim : Str) : Str → Option (Str × Str)
  | [] => if isStart delim [] then some ([], []) else none
  | c :: cs =>
    if isStart delim (c :: cs) then some ([], List.drop delim.length (c :: cs))
    else if P c then
      match fcGo P delim cs with
      | some (cnt, r) => some (c :: cnt, r)
      | none => none
    else none

/-- Lazy group `(.+?)` followed by the closing delimiter: at least one
admissible character is consumed, then the nearest close wins. -/
def findClose (P : Char → Bool) (delim : Str) : Str → Option (Str × Str)
  | [] => none
  | c :: cs =>
    if P c then
      match fcGo P delim cs with
      | some (cnt, r) => some (c :: cnt, r)
      | none => none
    else none

/-- Fuel-indexed scanner for `re.sub(delim (.+?) delim, opn \1 cls, s)`:
at each position, an opening delimiter with a lazily-closed group is
replaced and scanning continues after the match; otherwise one character
is emitted.  The fuel is the input length (every step consumes at least
one character). -/
def subLazyF (P : Char → Bool) (delim opn cls : Str) : Nat → Str → Str
  | 0, s => s
  | _ + 1, [] => []
  | fuel + 1, c :: cs =>
    if isStart delim (c :: cs) then
      match findClose P delim (List.drop delim.length (c :: cs)) with
      | some (cnt, rest) => opn ++ cnt ++ cls ++ subLazyF P delim opn cls fuel rest
      | none => c :: subLazyF P delim opn cls fuel cs
    else c :: subLazyF P delim opn cls fuel cs

/-- `re.sub` of a lazy delimited group (used for emphasis and code). -/
def subLazy (P : Char → Bool) (delim opn cls s : Str) : Str :=
  subLazyF P delim opn cls s.length s

/-- The six emphasis substitutions in source order (lines 298-303):
`***`, `___`, `**`, `__`, `*`, `_`. -/
def emphasisPass (s : Str) : Str :=
  subLazy notNl (("_").toList) (("<em>").toList) (("</em>").toList)
    (subLazy notNl (("*").toList) (("<em>").toList) (("</em>").toList)
      (subLazy notNl (("__").toList) (("<strong>").toList) (("</strong>").toList)
        (subLazy notNl (("**").toList) (("<strong>").toList) (("</strong>").toList)
          (subLazy notNl (("___").toList) (("<strong><em>").toList) (("</em></strong>").toList)
            (subLazy notNl (("***").toList) (("<strong><em>").toList) (("</em></strong>").toList) s)))))

/-- The backtick character. -/
def btick : Char := Char.ofNat 96

/-- Inline code spans (line 306): `[^`]+` between backticks; the negated
class admits any character (newlines included), and the scan stops at the
first backtick, which is exactly the closing-delimiter check. -/
def codePass (s : Str) : Str :=
  subLazy (fun _ => true) [btick] (("<code>").toList) (("</code>").toList) s

/-- The literal parse of `[text](url)` at a position just after `[`:
greedy `[^\]]+` runs to the first `]`, which must be followed directly by
`(`, then `[^)]+` to the first `)`. -/
def parseLink (cs : Str) : Option (Str × Str × Str) :=
  let txt := List.takeWhile (fun c => !(c == ']')) cs
  if txt.isEmpty then none
  else
    match List.dropWhile (fun c => !(c == ']')) cs with
    | ']' :: '(' :: r3 =>
      let url := List.takeWhile (fun c => !(c == ')')) r3
      if url.isEmpty then none
      else
        match List.dropWhile (fun c => !(c == ')')) r3 with
        | ')' :: rest => some (txt, url, rest)
        | _ => none
    | _ => none

/-- Fuel-indexed scanner for the link substitution (line 309). -/
def linkSubF : Nat → Str → Str
  | 0, s => s
  | _ + 1, [] => []
  | fuel + 1, c :: cs =>
    if c = '[' then
      match parseLink cs with
      | some (txt, url, rest) =>
        ("<a href=\"").toList ++ url ++ ("\">").toList ++ txt ++
          ("</a>").toList ++ linkSubF fuel rest
      | none => c :: linkSubF fuel cs
    else c :: linkSubF fuel cs

/-- `re.sub(r'\[([^\]]+)\]\(([^)]+)\)', r'<a href="\2">\1</a>', s)`. -/
def linkPass (s : Str) : Str := linkSubF s.length s

/-- `^[\*\-]\s+(.*)$` on one line (line 312): a marker character, at
least one whitespace character, and the group after the greedy
whitespace run. -/
def listItemLine : Str → Str
  | [] => []
  | c :: rest =>
    if (c == '*' || c == '-') && !rest.isEmpty &&
        isPySpaceChar (rest.headD ' ') then
      ("<li>").toList ++ List.dropWhile isPySpaceChar rest ++ ("</li>").toList
    else c :: rest

/-- Does `s` end with `pat`? -/
def endsWith (pat s : Str) : Bool := isStart pat.reverse s.reverse

/-- A line the regex `(<li>.*</li>\n?)+` consumes whole: it starts with
`<li>` and ends with `</li>` (the shape the list stage produces; a literal
`<` in input text was escaped earlier, so no other line contains these
tags). -/
def isLiLine (l : Str) : Bool :=
  isStart (("<li>").toList) l && endsWith (("</li>").toList) l

/-- Append a suffix to the last element of a non-empty list of lines. -/
def appendToLast (ls : List Str) (suf : Str) : List Str :=
  match ls with
  | [] => [suf]
  | [x] => [x ++ suf]
  | x :: y :: t => x :: appendToLast (y :: t) suf

/-- Fuel-indexed wrapping of maximal runs of list-item lines
(`wrap_lists`, lines 315-317): a run in the middle of the text gets a
`<ul>` line before and a `</ul>` line after (the run's trailing newline is
consumed by the greedy `\n?`); a run at the end of the text has no trailing
newline, so `</ul>\n` is appended directly after the last item line. -/
def wrapLinesF : Nat → List Str → List Str
  | 0, ls => ls
  | _ + 1, [] => []
  | fuel + 1, l :: ls =>
    if isLiLine l then
      (("<ul>").toList) ::
      (match List.dropWhile isLiLine ls with
       | [] => appendToLast (l :: List.takeWhile isLiLine ls) (("</ul>").toList) ++ [[]]
       | r :: rs =>
         (l :: List.takeWhile isLiLine ls) ++
           (("</ul>").toList) :: wrapLinesF fuel (r :: rs))
    else l :: wrapLinesF fuel ls

/-- The list-wrapping stage. -/
def wrapLists (s : Str) : Str :=
  joinNl (wrapLinesF (splitOnNl s).length (splitOnNl s))

/-- `text.split('\n\n')` (lines 320): blocks between blank lines. -/
def splitBlocks : Str → List Str
  | [] => [[]]
  | [c] => [[c]]
  | c :: c2 :: cs =>
    if c = '\n' ∧ c2 = '\n' then [] :: splitBlocks cs
    else
      match splitBlocks (c2 :: cs) with
      | [] => [[c]]
      | h :: t => (c :: h) :: t

/-- The block-level tags recognised by
`re.match(r'^<(h[1-6]|ul|ol|li|blockquote|pre|hr|div|p)', block)`. -/
def blockTags : List Str :=
  [("<h1").toList, ("<h2").toList, ("<h3").toList, ("<h4").toList,
   ("<h5").toList, ("<h6").toList, ("<ul").toList, ("<ol").toList,
   ("<li").toList, ("<blockquote").toList, ("<pre").toList, ("<hr").toList,
   ("<div").toList, ("<p").toList]

/-- Does the block already begin with a known block-level tag? -/
def startsBlockTag (l : Str) : Bool := blockTags.any (fun t => isStart t l)

/-- Rejoin blocks with blank lines (`'\n\n'.join(result)`). -/
def joinBlocks : List Str → Str
  | [] => []
  | [b] => b
  | b :: b2 :: bs => b ++ '\n' :: '\n' :: joinBlocks (b2 :: bs)

/-- The paragraph stage (lines 320-333): strip each block, skip empty
blocks, leave block-tag blocks alone, wrap the rest in `<p>` with inner
newlines as `<br>`, and rejoin with blank lines. -/
def paragraphWrap (s : Str) : Str :=
  joinBlocks
    (((splitBlocks s).map pyStrip).filter (fun b => !b.isEmpty) |>.map
      (fun b =>
        if startsBlockTag b then b
        else ("<p>").toList ++
          replaceAll (("\n").toList) (("<br>").toList) b ++ ("</p>").toList))

/-- Shallow embedding of `markdown_to_html` (scripts/build.py,
lines 271-333): the fixed cascade of text rewrites. -/
def markdown_to_html (markdown : Str) : Str :=
  paragraphWrap (wrapLists (mapLines listItemLine (linkPass (codePass
    (emphasisPass (mapLines hrLine (mapLines headerLine (blockquotePass
      (mdEscape (normalizeNl markdown))))))))))

/-! ### The excerpt computation (scripts/build.py, lines 606-612) -/

/-- Fuel-indexed `re.search(r'<p>(.+?)</p>', content, re.DOTALL)`: the
leftmost `<p>` that is followed, at least one character later, by `</p>`;
the group is the (lazily shortest) text between them. -/
def pFirstParaF : Nat → Str → Option Str
  | 0, _ => none
  | _ + 1, [] => none
  | fuel + 1, c :: cs =>
    if isStart (("<p>").toList) (c :: cs) then
      match findClose (fun _ => true) (("</p>").toList) (List.drop 3 (c :: cs)) with
      | some (cnt, _) => some cnt
      | none => pFirstParaF fuel cs
    else pFirstParaF fuel cs

/-- First-paragraph group of the excerpt extraction. -/
def pFirstPara (s : Str) : Option Str := pFirstParaF s.length s

/-- Fuel-indexed `re.sub(r'<[^>]+>', '', s)`: drop every span from a `<`
to the nearest following `>` with at least one character between (the
greedy `[^>]+` runs to the first `>`); when no such span starts here the
character is kept. -/
def stripTagsF : Nat → Str → Str
  | 0, s => s
  | _ + 1, [] => []
  | fuel + 1, c :: cs =>
    if c = '<' ∧ ¬(List.takeWhile (fun x => !(x == '>')) cs).isEmpty ∧
        ¬(List.dropWhile (fun x => !(x == '>')) cs).isEmpty then
      stripTagsF fuel (List.tail (List.dropWhile (fun x => !(x == '>')) cs))
    else c :: stripTagsF fuel cs

/-- Tag stripping of the excerpt extraction. -/
def stripTags (s : Str) : Str := stripTagsF s.length s

/-- Shallow embedding of the excerpt derivation inside `build()`
(scripts/build.py, lines 606-612): the first `<p>` group, tag-stripped and
cut to 150 characters, with an ellipsis appended when the RAW group (before
tag stripping) is longer than 150 characters. -/
def excerptOf (content : Str) : Str :=
  match pFirstPara content with
  | some g =>
    if 150 < g.length then List.take 150 (stripTags g) ++ ("...").toList
    else List.take 150 (stripTags g)
  | none => []

/-- The markdown source of the C7 counterexample: sixteen emphasis spans
`*xy*` separated by spaces on one line. -/
def mdStars16 : Str :=
  List.intercalate ((" ").toList) (List.replicate 16 (("*xy*").toList))

/-- The first-paragraph group that source renders to. -/
def gStars16 : Str :=
  List.intercalate ((" ").toList) (List.replicate 16 (("<em>xy</em>").toList))

theorem stripTagsF_length_le : ∀ (fuel : Nat) (s : Str),
    (stripTagsF fuel s).length ≤ s.length := by
  intro fuel
  induction fuel with
  | zero => intro s; exact Nat.le_refl _
  | succ n ih =>
    intro s
    cases s with
    | nil => exact Nat.le_refl _
    | cons c cs =>
      rw [stripTagsF]
      by_cases h : c = '<' ∧
          ¬(List.takeWhile (fun x => !(x == '>')) cs).isEmpty ∧
          ¬(List.dropWhile (fun x => !(x == '>')) cs).isEmpty
      · rw [if_pos h]
        have h1 := ih (List.tail (List.dropWhile (fun x => !(x == '>')) cs))
        have h2 : (List.tail (List.dropWhile (fun x => !(x == '>')) cs)).length ≤
            (List.dropWhile (fun x => !(x == '>')) cs).length := by
          cases List.dropWhile (fun x => !(x == '>')) cs with
          | nil => exact Nat.le_refl _
          | cons a as => simp [List.tail]
        have h3 : (List.dropWhile (fun x => !(x == '>')) cs).length ≤ cs.length :=
          (List.dropWhile_sublist _).length_le
        simp only [List.length_cons]
        omega
      · rw [if_neg h]
        simp only [List.length_cons]
        exact Nat.succ_le_succ (ih cs)

/-- Tag stripping never lengthens a string. -/
theorem stripTags_length_le (s : Str) : (stripTags s).length ≤ s.length :=
  stripTagsF_length_le s.length s

/-- C7 counterexample: the rendered content of sixteen `*xy*` spans has a
32-plus-spaces-character tag-stripped first paragraph (47 characters, no
truncation), yet the excerpt carries a trailing ellipsis, because the code
tests the raw (pre-strip) group length (191) against 150. -/
theorem C7_excerpt_counterexample :
    pFirstPara (markdown_to_html mdStars16) = some gStars16 ∧
    (stripTags gStars16).length = 47 ∧
    150 < gStars16.length ∧
    excerptOf (markdown_to_html mdStars16) =
      stripTags gStars16 ++ ("...").toList ∧
    excerptOf (markdown_to_html mdStars16) ≠
      List.take 150 (stripTags gStars16) ++
        (if 150 < (stripTags gStars16).length then ("...").toList else []) := by
  refine ⟨by decide, by decide, by decide, by decide, by decide⟩

/-- C7 amended: for every content with a first paragraph, the excerpt is
the tag-stripped group truncated to 150 characters, with the ellipsis
appended if and only if the RAW group exceeds 150 characters; true
truncation of the tag-stripped text still implies the ellipsis (the spec's
`if` direction), and the two plain-text examples of the spec hold. -/
theorem C7_excerpt_amended (content g : Str)
    (h : pFirstPara content = some g) :
    (excerptOf content = List.take 150 (stripTags g) ++
      (if 150 < g.length then ("...").toList else []) ∧
     (150 < (stripTags g).length → 150 < g.length)) ∧
    excerptOf (markdown_to_html (List.replicate 200 'a')) =
      List.replicate 150 'a' ++ ("...").toList ∧
    excerptOf (markdown_to_html (List.replicate 100 'a')) =
      List.replicate 100 'a' := by
  refine ⟨⟨?_, ?_⟩, by decide, by decide⟩
  · simp only [excerptOf, h]
    by_cases hlen : 150 < g.length
    · rw [if_pos hlen, if_pos hlen]
    · rw [if_neg hlen, if_neg hlen, List.append_nil]
  · intro hstr
    have := stripTags_length_le g
    omega

/-- C7 witness: the amended theorem applied to the concrete 100-character
paragraph. -/
theorem C7_excerpt_amended_witness :
    pFirstPara (markdown_to_html (List.replicate 100 'a')) =
      some (List.replicate 100 'a') ∧
    excerptOf (markdown_to_html (List.replicate 100 'a')) =
      List.take 150 (stripTags (List.replicate 100 'a')) ++
        (if 150 < (List.replicate 100 'a').length then ("...").toList
         else []) := by
  refine ⟨by decide, ?_⟩
  exact (C7_excerpt_amended (markdown_to_html (List.replicate 100 'a'))
    (List.replicate 100 'a') (by decide)).1.1

/-! ### Identity and computation lemmas for the renderer passes -/

theorem not_mem_of_all {P : Char → Bool} {l : Str} {c : Char}
    (hP : ∀ ch ∈ l, P ch = true) (hc : P c = false) : c ∉ l := by
  intro h
  rw [hP c h] at hc
  exact absurd hc (by simp)

theorem not_mem_append {c : Char} {u v : Str} (h1 : c ∉ u) (h2 : c ∉ v) :
    c ∉ u ++ v := by
  intro h
  rcases List.mem_append.mp h with h | h
  · exact h1 h
  · exact h2 h

theorem joinNl_splitOnNl (s : Str) : joinNl (splitOnNl s) = s := by
  induction s with
  | nil => rfl
  | cons c cs ih =>
    rw [splitOnNl]
    cases hs : splitOnNl cs with
    | nil =>
      rw [hs] at ih
      have hcs : cs = [] := by simpa [joinNl] using ih
      subst hcs
      rfl
    | cons h t =>
      rw [hs] at ih
      show joinNl (if c = '\n' then [] :: h :: t else (c :: h) :: t) = c :: cs
      by_cases hc : c = '\n'
      · rw [if_pos hc, hc, joinNl, ih]
        simp
      · rw [if_neg hc]
        cases t with
        | nil =>
          rw [joinNl] at ih ⊢
          rw [ih]
        | cons t1 ts =>
          rw [joinNl] at ih ⊢
          rw [List.cons_append, ih]

theorem splitOnNl_no_nl {s : Str} (h : '\n' ∉ s) : splitOnNl s = [s] := by
  induction s with
  | nil => rfl
  | cons c cs ih =>
    have hc : c ≠ '\n' := fun hc => h (hc ▸ List.mem_cons_self _ _)
    have hcs : '\n' ∉ cs := fun hm => h (List.mem_cons_of_mem _ hm)
    rw [splitOnNl, ih hcs]
    simp only []
    rw [if_neg hc]

theorem mapLines_single {f : Str → Str} {s : Str} (h : '\n' ∉ s) :
    mapLines f s = f s := by
  rw [mapLines, splitOnNl_no_nl h, List.map_cons, List.map_nil, joinNl]

theorem replaceAllF_id {d : Char} {ds rep : Str} : ∀ (fuel : Nat) (s : Str),
    d ∉ s → replaceAllF (d :: ds) rep fuel s = s := by
  intro fuel
  induction fuel with
  | zero => intro s _; rfl
  | succ n ih =>
    intro s hs
    cases s with
    | nil => rfl
    | cons c cs =>
      have hc : d ≠ c := fun h => hs (h ▸ List.mem_cons_self _ _)
      have hst : isStart (d :: ds) (c :: cs) = false := by
        rw [isStart]
        simp [beq_iff_eq, hc]
      rw [replaceAllF, hst]
      simp only [Bool.false_eq_true, if_false]
      rw [ih cs (fun hm => hs (List.mem_cons_of_mem _ hm))]

theorem replaceAll_id {d : Char} {ds rep s : Str} (h : d ∉ s) :
    replaceAll (d :: ds) rep s = s := replaceAllF_id _ _ h

theorem subLazyF_id {P : Char → Bool} {d : Char} {ds opn cls : Str} :
    ∀ (fuel : Nat) (s : Str), d ∉ s →
    subLazyF P (d :: ds) opn cls fuel s = s := by
  intro fuel
  induction fuel with
  | zero => intro s _; rfl
  | succ n ih =>
    intro s hs
    cases s with
    | nil => rfl
    | cons c cs =>
      have hc : d ≠ c := fun h => hs (h ▸ List.mem_cons_self _ _)
      have hst : isStart (d :: ds) (c :: cs) = false := by
        rw [isStart]
        simp [beq_iff_eq, hc]
      rw [subLazyF, hst]
      simp only [Bool.false_eq_true, if_false]
      rw [ih cs (fun hm => hs (List.mem_cons_of_mem _ hm))]

theorem subLazy_id {P : Char → Bool} {d : Char} {ds opn cls s : Str}
    (h : d ∉ s) : subLazy P (d :: ds) opn cls s = s := subLazyF_id _ _ h

theorem linkSubF_id : ∀ (fuel : Nat) (s : Str), '[' ∉ s →
    linkSubF fuel s = s := by
  intro fuel
  induction fuel with
  | zero => intro s _; rfl
  | succ n ih =>
    intro s hs
    cases s with
    | nil => rfl
    | cons c cs =>
      have hc : ¬ c = '[' := fun h => hs (h ▸ List.mem_cons_self _ _)
      rw [linkSubF, if_neg hc]
      rw [ih cs (fun hm => hs (List.mem_cons_of_mem _ hm))]

theorem linkPass_id {s : Str} (h : '[' ∉ s) : linkPass s = s :=
  linkSubF_id _ _ h

theorem normalizeNl_id : ∀ (s : Str), '\r' ∉ s → normalizeNl s = s
  | [], _ => rfl
  | [_], _ => rfl
  | c :: c2 :: cs, h => by
    have hc : c ≠ '\r' := fun hc => h (hc ▸ List.mem_cons_self _ _)
    rw [normalizeNl, if_neg (fun hp => hc hp.1),
      normalizeNl_id (c2 :: cs) (fun hm => h (List.mem_cons_of_mem _ hm))]

theorem mdEscape_id {s : Str} (h1 : '&' ∉ s) (h2 : '<' ∉ s) (h3 : '>' ∉ s) :
    mdEscape s = s := by
  rw [mdEscape,
    show (("&").toList) = ['&'] from rfl,
    show (("<").toList) = ['<'] from rfl,
    show ((">").toList) = ['>'] from rfl,
    replaceAll_id h1, replaceAll_id h2, replaceAll_id h3]

theorem blockquoteLine_id {l : Str} (h : isStart (("&gt;").toList) l = false) :
    blockquoteLine l = l := by
  rw [blockquoteLine, h]
  simp

theorem headerLineK_none {k : Nat} {l : Str} (hk : 1 ≤ k)
    (h : isStart ['#'] l = false) : headerLineK k l = none := by
  rw [headerLineK, if_neg]
  intro hcon
  cases k with
  | zero => omega
  | succ m =>
    rw [List.replicate_succ] at hcon
    cases l with
    | nil => rw [isStart] at hcon; exact absurd hcon (by simp)
    | cons c cs =>
      rw [isStart, Bool.and_eq_true, beq_iff_eq] at hcon
      rw [isStart] at h
      rw [← hcon.1] at h
      simp [isStart] at h

theorem headerLine_id {l : Str} (h : isStart ['#'] l = false) :
    headerLine l = l := by
  rw [headerLine]
  rw [headerLineK_none (by omega) h, headerLineK_none (by omega) h,
    headerLineK_none (by omega) h, headerLineK_none (by omega) h,
    headerLineK_none (by omega) h, headerLineK_none (by omega) h]

theorem hrLine_id {l : Str}
    (h1 : ∃ c ∈ l, c ≠ '*') (h2 : ∃ c ∈ l, c ≠ '-') (h3 : ∃ c ∈ l, c ≠ '_') :
    hrLine l = l := by
  have ha : ∀ (d : Char), (∃ c ∈ l, c ≠ d) → allChar d l = false := by
    intro d ⟨c, hc, hne⟩
    rw [allChar]
    cases hall : l.all (fun x => x == d) with
    | false => rfl
    | true =>
      have := List.all_eq_true.mp hall c hc
      rw [beq_iff_eq] at this
      exact absurd this hne
  rw [hrLine]
  rw [ha '*' h1, ha '-' h2, ha '_' h3]
  rw [show ((false : Bool) || false || false) = false from rfl, Bool.and_false]
  rw [if_neg (by simp : ¬((false : Bool) = true))]

theorem hrLine_id_short {l : Str} (h : l.length < 3) : hrLine l = l := by
  rw [hrLine, if_neg]
  intro hcon
  rw [Bool.and_eq_true] at hcon
  have := hcon.1
  simp only [decide_eq_true_eq] at this
  omega

theorem listItemLine_id {l : Str}
    (h : ∀ c, l.head? = some c → (c == '*' || c == '-') = false) :
    listItemLine l = l := by
  cases l with
  | nil => rfl
  | cons c cs =>
    rw [listItemLine, h c rfl]
    simp

theorem wrapLinesF_id : ∀ (fuel : Nat) (ls : List Str),
    (∀ l ∈ ls, isLiLine l = false) → wrapLinesF fuel ls = ls := by
  intro fuel
  induction fuel with
  | zero => intro ls _; rfl
  | succ n ih =>
    intro ls h
    cases ls with
    | nil => rfl
    | cons l rest =>
      rw [wrapLinesF]
      rw [h l (List.mem_cons_self _ _)]
      simp only [Bool.false_eq_true, if_false]
      rw [ih rest (fun x hx => h x (List.mem_cons_of_mem _ hx))]

theorem wrapLists_id {s : Str}
    (h : ∀ l ∈ splitOnNl s, isLiLine l = false) : wrapLists s = s := by
  rw [wrapLists, wrapLinesF_id _ _ h, joinNl_splitOnNl]

theorem isStart_cons_false {c e : Char} {p rest : Str} (h : c ≠ e) :
    isStart (c :: p) (e :: rest) = false := by
  rw [isStart]
  simp [beq_iff_eq, h]

theorem isStart_eq_false_of_not_mem {c : Char} {p s : Str} (h : c ∉ s) :
    isStart (c :: p) s = false := by
  cases hst : isStart (c :: p) s with
  | false => rfl
  | true =>
    obtain ⟨t, ht⟩ := (isStart_iff _ _).mp hst
    rw [ht] at h
    exact absurd (List.mem_append_left _ (List.mem_cons_self _ _)) h

theorem isStart_append_self (p t : Str) : isStart p (p ++ t) = true :=
  (isStart_iff _ _).mpr ⟨t, rfl⟩

theorem fcGo_append {P : Char → Bool} {d : Char} {ds : Str} :
    ∀ (x b : Str), d ∉ x → (∀ c ∈ x, P c = true) →
    fcGo P (d :: ds) (x ++ ((d :: ds) ++ b)) = some (x, b) := by
  intro x
  induction x with
  | nil =>
    intro b _ _
    rw [List.nil_append, List.cons_append, fcGo,
      if_pos (by rw [← List.cons_append]; exact isStart_append_self _ _)]
    rw [← List.cons_append, List.drop_left]
  | cons x0 xr ih =>
    intro b hd hP
    rw [List.cons_append, fcGo]
    rw [isStart_cons_false (fun h => hd (by rw [h]; exact List.mem_cons_self _ _))]
    simp only [Bool.false_eq_true, if_false]
    rw [if_pos (hP x0 (List.mem_cons_self _ _)),
      ih b (fun hm => hd (List.mem_cons_of_mem _ hm))
        (fun c hc => hP c (List.mem_cons_of_mem _ hc))]

theorem findClose_append {P : Char → Bool} {d : Char} {ds : Str}
    (x0 : Char) (xr b : Str) (hd : d ∉ (x0 :: xr))
    (hP : ∀ c ∈ x0 :: xr, P c = true) :
    findClose P (d :: ds) ((x0 :: xr) ++ ((d :: ds) ++ b)) =
      some (x0 :: xr, b) := by
  rw [List.cons_append, findClose, if_pos (hP x0 (List.mem_cons_self _ _))]
  rw [fcGo_append xr b (fun hm => hd (List.mem_cons_of_mem _ hm))
    (fun c hc => hP c (List.mem_cons_of_mem _ hc))]

theorem subLazyF_match {P : Char → Bool} {d : Char} {ds opn cls : Str} :
    ∀ (a : Str) (fuel : Nat) (x b : Str),
    d ∉ a → d ∉ x → d ∉ b → x ≠ [] → (∀ c ∈ x, P c = true) →
    a.length + 1 ≤ fuel →
    subLazyF P (d :: ds) opn cls fuel
        (a ++ ((d :: ds) ++ (x ++ ((d :: ds) ++ b)))) =
      a ++ (opn ++ (x ++ (cls ++ b))) := by
  intro a
  induction a with
  | nil =>
    intro fuel x b _ hdx hdb hxne hP hfuel
    cases fuel with
    | zero => omega
    | succ f =>
      rw [List.nil_append, List.cons_append, subLazyF,
        if_pos (by rw [← List.cons_append]; exact isStart_append_self _ _)]
      rw [← List.cons_append, List.drop_left]
      cases x with
      | nil => exact absurd rfl hxne
      | cons x0 xr =>
        rw [findClose_append x0 xr b hdx hP]
        show opn ++ (x0 :: xr) ++ cls ++ subLazyF P (d :: ds) opn cls f b =
          [] ++ (opn ++ ((x0 :: xr) ++ (cls ++ b)))
        rw [subLazyF_id f b hdb]
        simp [List.append_assoc]
  | cons a0 ar ih =>
    intro fuel x b hda hdx hdb hxne hP hfuel
    cases fuel with
    | zero => simp at hfuel
    | succ f =>
      rw [List.cons_append, subLazyF,
        isStart_cons_false (fun h => hda (by rw [h]; exact List.mem_cons_self _ _))]
      simp only [Bool.false_eq_true, if_false]
      rw [ih f x b (fun hm => hda (List.mem_cons_of_mem _ hm)) hdx hdb hxne hP
        (by simp at hfuel; omega)]
      rfl

theorem subLazy_match {P : Char → Bool} {d : Char} {ds opn cls : Str}
    (a x b : Str) (hda : d ∉ a) (hdx : d ∉ x) (hdb : d ∉ b) (hxne : x ≠ [])
    (hP : ∀ c ∈ x, P c = true) :
    subLazy P (d :: ds) opn cls (a ++ ((d :: ds) ++ (x ++ ((d :: ds) ++ b)))) =
      a ++ (opn ++ (x ++ (cls ++ b))) := by
  apply subLazyF_match a _ x b hda hdx hdb hxne hP
  simp

theorem alnum_ne {c e : Char} (hc : c.isAlphanum = true)
    (he : e.isAlphanum = false) : c ≠ e := by
  intro h
  rw [h, he] at hc
  exact absurd hc (by simp)

theorem alnum_not_space {c : Char} (h : c.isAlphanum = true) :
    isPySpaceChar c = false := by
  cases hs : isPySpaceChar c with
  | false => rfl
  | true =>
    rw [isPySpaceChar] at hs
    simp only [Bool.or_eq_true, beq_iff_eq] at hs
    rcases hs with ((((h1 | h1) | h1) | h1) | h1) | h1 <;>
      (subst h1; exact absurd h (by decide))

theorem alnum_not_marker {c : Char} (h : c.isAlphanum = true) :
    (c == '*' || c == '-') = false := by
  have h1 : c ≠ '*' := alnum_ne h (by decide)
  have h2 : c ≠ '-' := alnum_ne h (by decide)
  simp [beq_iff_eq, h1, h2]

theorem dropWhile_id_of_head {p : Char → Bool} {l : Str}
    (h : ∀ c, l.head? = some c → p c = false) : List.dropWhile p l = l := by
  cases l with
  | nil => rfl
  | cons c cs =>
    rw [List.dropWhile, h c rfl]

/-- Is the last character whitespace? -/
def lastIsSpace : Str → Bool
  | [] => false
  | [c] => isPySpaceChar c
  | _ :: c2 :: cs => lastIsSpace (c2 :: cs)

theorem lastIsSpace_cons (c : Char) (l : Str) :
    lastIsSpace (c :: l) =
      (if l.isEmpty then isPySpaceChar c else lastIsSpace l) := by
  cases l with
  | nil => simp [lastIsSpace, List.isEmpty]
  | cons x xs => simp [lastIsSpace, List.isEmpty]

theorem lastIsSpace_append {v : Str} (hv : v ≠ []) : ∀ (u : Str),
    lastIsSpace (u ++ v) = lastIsSpace v := by
  intro u
  induction u with
  | nil => rfl
  | cons x xs ih =>
    rw [List.cons_append, lastIsSpace_cons]
    have hne : (xs ++ v).isEmpty = false := by
      cases hxs : xs ++ v with
      | nil => exact absurd (List.append_eq_nil.mp hxs).2 hv
      | cons _ _ => rfl
    rw [hne]
    simp only [Bool.false_eq_true, if_false]
    exact ih

theorem lastIsSpace_false_of_all {l : Str}
    (h : ∀ c ∈ l, isPySpaceChar c = false) : lastIsSpace l = false := by
  induction l with
  | nil => rfl
  | cons c cs ih =>
    rw [lastIsSpace_cons]
    by_cases he : cs.isEmpty = true
    · rw [if_pos he]
      exact h c (List.mem_cons_self _ _)
    · rw [if_neg he]
      exact ih (fun x hx => h x (List.mem_cons_of_mem _ hx))

theorem pyStripRight_id {l : Str} (h : lastIsSpace l = false) :
    pyStripRight l = l := by
  induction l with
  | nil => rfl
  | cons c cs ih =>
    rw [lastIsSpace_cons] at h
    show (if (pyStripRight cs).isEmpty && isPySpaceChar c then []
      else c :: pyStripRight cs) = c :: cs
    by_cases hcs : cs = []
    · subst hcs
      have hch : isPySpaceChar c = false := by simpa [List.isEmpty] using h
      have h0 : pyStripRight ([] : Str) = [] := rfl
      rw [h0]
      simp [hch]
    · have he : cs.isEmpty = false := by
        cases cs with
        | nil => exact absurd rfl hcs
        | cons _ _ => rfl
      rw [he] at h
      simp only [Bool.false_eq_true, if_false] at h
      have hcs2 := ih h
      rw [hcs2, if_neg (by rw [he]; simp)]

theorem pyStrip_id {l : Str}
    (hh : ∀ c, l.head? = some c → isPySpaceChar c = false)
    (hl : lastIsSpace l = false) : pyStrip l = l := by
  rw [pyStrip, pyStripRight_id hl, dropWhile_id_of_head hh]

theorem splitBlocks_no_nl : ∀ (s : Str), '\n' ∉ s → splitBlocks s = [s]
  | [], _ => rfl
  | [_], _ => rfl
  | c :: c2 :: cs, h => by
    have hc : c ≠ '\n' := fun hc => h (hc ▸ List.mem_cons_self _ _)
    rw [splitBlocks, if_neg (fun hp => hc hp.1),
      splitBlocks_no_nl (c2 :: cs) (fun hm => h (List.mem_cons_of_mem _ hm))]

theorem blockTags_heads : ∀ t ∈ blockTags, t.head? = some '<' := by decide

theorem startsBlockTag_of_ne {c : Char} {r : Str} (h : c ≠ '<') :
    startsBlockTag (c :: r) = false := by
  rw [startsBlockTag]
  rw [List.any_eq_false]
  intro t ht
  obtain ⟨p, hp⟩ : ∃ p, t = '<' :: p := by
    have hhd := blockTags_heads t ht
    cases t with
    | nil => simp at hhd
    | cons t0 ts =>
      simp only [List.head?, Option.some.injEq] at hhd
      exact ⟨ts, by rw [hhd]⟩
  rw [hp, isStart_cons_false (fun heq => h heq.symm)]
  simp

theorem isLiLine_of_ne {c : Char} {r : Str} (h : ('<' : Char) ≠ c) :
    isLiLine (c :: r) = false := by
  rw [isLiLine,
    show (("<li>").toList) = '<' :: ("li>").toList from rfl,
    isStart_cons_false h]
  simp

/-- The stages before emphasis (normalize, escape, blockquote, headers,
horizontal rules) leave a string without any of their trigger characters
unchanged. -/
theorem pre_passes_id (S : Str) (h_nl : '\n' ∉ S) (h_cr : '\r' ∉ S)
    (h_amp : '&' ∉ S) (h_lt : '<' ∉ S) (h_gt : '>' ∉ S) (h_hash : '#' ∉ S)
    (hw1 : ∃ c ∈ S, c ≠ '*') (hw2 : ∃ c ∈ S, c ≠ '-')
    (hw3 : ∃ c ∈ S, c ≠ '_') :
    mapLines hrLine (mapLines headerLine (blockquotePass (mdEscape
      (normalizeNl S)))) = S := by
  rw [normalizeNl_id S h_cr, mdEscape_id h_amp h_lt h_gt]
  rw [blockquotePass, mapLines_single h_nl, blockquoteLine_id (by
    rw [show (("&gt;").toList) = '&' :: ("gt;").toList from rfl]
    exact isStart_eq_false_of_not_mem h_amp)]
  rw [show (("</blockquote>\n<blockquote>").toList) =
    '<' :: ("/blockquote>\n<blockquote>").toList from rfl]
  rw [replaceAll_id h_lt]
  rw [mapLines_single h_nl, headerLine_id (isStart_eq_false_of_not_mem h_hash)]
  rw [mapLines_single h_nl, hrLine_id hw1 hw2 hw3]

/-- The stages after emphasis (code, links, list items, list wrapping,
paragraphs) turn the nested-emphasis string into a single paragraph. -/
theorem post_passes (a x b : Str)
    (ha : ∀ c ∈ a, c.isAlphanum = true) (hb : ∀ c ∈ b, c.isAlphanum = true)
    (hx : ∀ c ∈ x, (c.isAlphanum || c == ' ' || c == '-') = true) :
    paragraphWrap (wrapLists (mapLines listItemLine (linkPass (codePass
      (a ++ (("<strong><em>").toList ++
        (x ++ (("</em></strong>").toList ++ b)))))))) =
    ("<p>").toList ++
      ((a ++ (("<strong><em>").toList ++
        (x ++ (("</em></strong>").toList ++ b)))) ++ ("</p>").toList) := by
  have hmemT : ∀ e : Char, e ∉ a → e ∉ x → e ∉ b →
      e ∉ ("<strong><em>").toList → e ∉ ("</em></strong>").toList →
      e ∉ a ++ (("<strong><em>").toList ++
        (x ++ (("</em></strong>").toList ++ b))) :=
    fun e h1 h2 h3 h4 h5 =>
      not_mem_append h1 (not_mem_append h4 (not_mem_append h2
        (not_mem_append h5 h3)))
  have hmemcls : ∀ e : Char, e.isAlphanum = false →
      (e.isAlphanum || e == ' ' || e == '-') = false →
      e ∉ ("<strong><em>").toList → e ∉ ("</em></strong>").toList →
      e ∉ a ++ (("<strong><em>").toList ++
        (x ++ (("</em></strong>").toList ++ b))) :=
    fun e he1 he2 h4 h5 =>
      hmemT e (not_mem_of_all ha he1) (not_mem_of_all hx he2)
        (not_mem_of_all hb he1) h4 h5
  have h_nl : '\n' ∉ a ++ (("<strong><em>").toList ++
      (x ++ (("</em></strong>").toList ++ b))) :=
    hmemcls '\n' (by decide) (by decide) (by decide) (by decide)
  have h_bt : btick ∉ a ++ (("<strong><em>").toList ++
      (x ++ (("</em></strong>").toList ++ b))) :=
    hmemcls btick (by decide) (by decide) (by decide) (by decide)
  have h_lb : '[' ∉ a ++ (("<strong><em>").toList ++
      (x ++ (("</em></strong>").toList ++ b))) :=
    hmemcls '[' (by decide) (by decide) (by decide) (by decide)
  rw [codePass, subLazy_id h_bt, linkPass_id h_lb]
  have hlast : lastIsSpace (a ++ (("<strong><em>").toList ++
      (x ++ (("</em></strong>").toList ++ b)))) = false := by
    rw [lastIsSpace_append (by simp) a]
    rw [lastIsSpace_append (by
      intro hcon
      have := List.append_eq_nil.mp hcon
      simp at this) (("<strong><em>").toList)]
    rw [lastIsSpace_append (by simp) x]
    cases b with
    | nil =>
      rw [List.append_nil]
      decide
    | cons b0 bs =>
      rw [lastIsSpace_append (by simp) (("</em></strong>").toList)]
      exact lastIsSpace_false_of_all (fun c hc => alnum_not_space (hb c hc))
  cases a with
  | nil =>
    simp only [List.nil_append] at h_nl h_bt h_lb hlast ⊢
    rw [mapLines_single h_nl, listItemLine_id (by
      intro c hc
      rw [show (("<strong><em>").toList) = '<' :: ("strong><em>").toList
        from rfl, List.cons_append] at hc
      simp only [List.head?, Option.some.injEq] at hc
      rw [← hc]
      decide)]
    rw [wrapLists_id (by
      rw [splitOnNl_no_nl h_nl]
      intro l hl
      rw [List.mem_singleton] at hl
      subst hl
      rfl)]
    rw [paragraphWrap, splitBlocks_no_nl _ h_nl, List.map_cons, List.map_nil]
    rw [pyStrip_id (by
      intro c hc
      rw [show (("<strong><em>").toList) = '<' :: ("strong><em>").toList
        from rfl, List.cons_append] at hc
      simp only [List.head?, Option.some.injEq] at hc
      rw [← hc]
      decide) hlast]
    rw [List.filter_cons, List.filter_nil]
    rw [if_pos (by simp)]
    rw [List.map_cons, List.map_nil]
    rw [show startsBlockTag (("<strong><em>").toList ++
      (x ++ (("</em></strong>").toList ++ b))) = false from rfl]
    simp only [Bool.false_eq_true, if_false]
    rw [show (("\n").toList) = '\n' :: ([] : Str) from rfl, replaceAll_id h_nl]
    rw [joinBlocks]
    simp [List.append_assoc]
  | cons a0 ar =>
    have ha0 : a0.isAlphanum = true := ha a0 (List.mem_cons_self _ _)
    rw [mapLines_single h_nl, listItemLine_id (by
      intro c hc
      simp only [List.cons_append, List.head?, Option.some.injEq] at hc
      rw [← hc]
      exact alnum_not_marker ha0)]
    rw [wrapLists_id (by
      rw [splitOnNl_no_nl h_nl]
      intro l hl
      rw [List.mem_singleton] at hl
      subst hl
      rw [List.cons_append]
      exact isLiLine_of_ne (fun h => alnum_ne ha0 (by decide) h.symm))]
    rw [paragraphWrap, splitBlocks_no_nl _ h_nl, List.map_cons, List.map_nil]
    rw [pyStrip_id (by
      intro c hc
      simp only [List.cons_append, List.head?, Option.some.injEq] at hc
      rw [← hc]
      exact alnum_not_space ha0) hlast]
    rw [List.filter_cons, List.filter_nil]
    rw [if_pos (by simp)]
    rw [List.map_cons, List.map_nil]
    rw [List.cons_append,
      startsBlockTag_of_ne (alnum_ne ha0 (by decide)), ← List.cons_append]
    simp only [Bool.false_eq_true, if_false]
    rw [show (("\n").toList) = '\n' :: ([] : Str) from rfl, replaceAll_id h_nl]
    rw [joinBlocks]
    simp [List.append_assoc]

/-- On a string whose only stars are one `***…***` span, the six emphasis
substitutions produce exactly the nested strong-and-em element. -/
theorem emphasisPass_match_star (a x b : Str)
    (hsa : '*' ∉ a) (hsx : '*' ∉ x) (hsb : '*' ∉ b)
    (hua : '_' ∉ a) (hux : '_' ∉ x) (hub : '_' ∉ b)
    (hxne : x ≠ []) (hxnl : '\n' ∉ x) :
    emphasisPass (a ++ (("***").toList ++ (x ++ (("***").toList ++ b)))) =
      a ++ (("<strong><em>").toList ++
        (x ++ (("</em></strong>").toList ++ b))) := by
  have hP : ∀ c ∈ x, notNl c = true := by
    intro c hc
    rw [notNl]
    simp only [Bool.not_eq_true', beq_eq_false_iff_ne]
    exact fun h => hxnl (h ▸ hc)
  rw [emphasisPass]
  rw [show (("***").toList) = '*' :: ("**").toList from rfl]
  rw [subLazy_match a x b hsa hsx hsb hxne hP]
  have hmemT : ∀ e : Char, e ∉ a → e ∉ x → e ∉ b →
      e ∉ ("<strong><em>").toList → e ∉ ("</em></strong>").toList →
      e ∉ a ++ (("<strong><em>").toList ++
        (x ++ (("</em></strong>").toList ++ b))) :=
    fun e h1 h2 h3 h4 h5 =>
      not_mem_append h1 (not_mem_append h4 (not_mem_append h2
        (not_mem_append h5 h3)))
  have hstarT := hmemT '*' hsa hsx hsb (by decide) (by decide)
  have hundT := hmemT '_' hua hux hub (by decide) (by decide)
  rw [show (("___").toList) = '_' :: ("__").toList from rfl, subLazy_id hundT]
  rw [show (("**").toList) = '*' :: ("*").toList from rfl, subLazy_id hstarT]
  rw [show (("__").toList) = '_' :: ("_").toList from rfl, subLazy_id hundT]
  rw [show (("*").toList) = '*' :: ([] : Str) from rfl, subLazy_id hstarT]
  rw [show (("_").toList) = '_' :: ([] : Str) from rfl, subLazy_id hundT]

/-- Same for a `___…___` span: the star passes do not fire, the triple
underscore pass does. -/
theorem emphasisPass_match_und (a x b : Str)
    (hsa : '*' ∉ a) (hsx : '*' ∉ x) (hsb : '*' ∉ b)
    (hua : '_' ∉ a) (hux : '_' ∉ x) (hub : '_' ∉ b)
    (hxne : x ≠ []) (hxnl : '\n' ∉ x) :
    emphasisPass (a ++ (("___").toList ++ (x ++ (("___").toList ++ b)))) =
      a ++ (("<strong><em>").toList ++
        (x ++ (("</em></strong>").toList ++ b))) := by
  have hP : ∀ c ∈ x, notNl c = true := by
    intro c hc
    rw [notNl]
    simp only [Bool.not_eq_true', beq_eq_false_iff_ne]
    exact fun h => hxnl (h ▸ hc)
  have hmemS : ∀ e : Char, e ∉ a → e ∉ x → e ∉ b →
      e ∉ ("___").toList →
      e ∉ a ++ (("___").toList ++ (x ++ (("___").toList ++ b))) :=
    fun e h1 h2 h3 h4 =>
      not_mem_append h1 (not_mem_append h4 (not_mem_append h2
        (not_mem_append h4 h3)))
  have hstarS := hmemS '*' hsa hsx hsb (by decide)
  rw [emphasisPass]
  rw [show (("***").toList) = '*' :: ("**").toList from rfl, subLazy_id hstarS]
  rw [show (("___").toList) = '_' :: ("__").toList from rfl]
  rw [subLazy_match a x b hua hux hub hxne hP]
  have hmemT : ∀ e : Char, e ∉ a → e ∉ x → e ∉ b →
      e ∉ ("<strong><em>").toList → e ∉ ("</em></strong>").toList →
      e ∉ a ++ (("<strong><em>").toList ++
        (x ++ (("</em></strong>").toList ++ b))) :=
    fun e h1 h2 h3 h4 h5 =>
      not_mem_append h1 (not_mem_append h4 (not_mem_append h2
        (not_mem_append h5 h3)))
  have hstarT := hmemT '*' hsa hsx hsb (by decide) (by decide)
  have hundT := hmemT '_' hua hux hub (by decide) (by decide)
  rw [show (("**").toList) = '*' :: ("*").toList from rfl, subLazy_id hstarT]
  rw [show (("__").toList) = '_' :: ("_").toList from rfl, subLazy_id hundT]
  rw [show (("*").toList) = '*' :: ([] : Str) from rfl, subLazy_id hstarT]
  rw [show (("_").toList) = '_' :: ([] : Str) from rfl, subLazy_id hundT]

/-- C8: for every markdown input made of a triple-emphasis span
`***x***` (or `___x___`) in an alphanumeric context (alphanumeric
before/after text, non-empty span text of alphanumerics, spaces and
hyphens), the renderer produces the nested strong-and-emphasis elements
around `x` inside a single paragraph — never mismatched fragments —
because the triple-marker substitutions run before the double and single
ones. -/
theorem C8_triple_emphasis (a x b : Str)
    (ha : ∀ c ∈ a, c.isAlphanum = true) (hb : ∀ c ∈ b, c.isAlphanum = true)
    (hx : ∀ c ∈ x, (c.isAlphanum || c == ' ' || c == '-') = true)
    (hxne : x ≠ []) :
    markdown_to_html (a ++ (("***").toList ++ (x ++ (("***").toList ++ b)))) =
      ("<p>").toList ++
        ((a ++ (("<strong><em>").toList ++
          (x ++ (("</em></strong>").toList ++ b)))) ++ ("</p>").toList) ∧
    markdown_to_html (a ++ (("___").toList ++ (x ++ (("___").toList ++ b)))) =
      ("<p>").toList ++
        ((a ++ (("<strong><em>").toList ++
          (x ++ (("</em></strong>").toList ++ b)))) ++ ("</p>").toList) := by
  have hsa : '*' ∉ a := not_mem_of_all ha (by decide)
  have hsx : '*' ∉ x := not_mem_of_all hx (by decide)
  have hsb : '*' ∉ b := not_mem_of_all hb (by decide)
  have hua : '_' ∉ a := not_mem_of_all ha (by decide)
  have hux : '_' ∉ x := not_mem_of_all hx (by decide)
  have hub : '_' ∉ b := not_mem_of_all hb (by decide)
  have hxnl : '\n' ∉ x := not_mem_of_all hx (by decide)
  obtain ⟨x0, xr, hx0⟩ : ∃ x0 xr, x = x0 :: xr := by
    cases x with
    | nil => exact absurd rfl hxne
    | cons x0 xr => exact ⟨x0, xr, rfl⟩
  have hx0cl := hx x0 (by rw [hx0]; exact List.mem_cons_self _ _)
  have hmemS : ∀ (delim : Str), (∀ e : Char, e ∉ a → e ∉ x → e ∉ b →
      e ∉ delim →
      e ∉ a ++ (delim ++ (x ++ (delim ++ b)))) :=
    fun delim e h1 h2 h3 h4 =>
      not_mem_append h1 (not_mem_append h4 (not_mem_append h2
        (not_mem_append h4 h3)))
  have hx0S : ∀ (delim : Str), x0 ∈ a ++ (delim ++ (x ++ (delim ++ b))) :=
    fun delim => List.mem_append_right _ (List.mem_append_right _
      (List.mem_append_left _ (by rw [hx0]; exact List.mem_cons_self _ _)))
  constructor
  · have hdm : ('*' : Char) ∈ ("***").toList := by decide
    have hdS : ('*' : Char) ∈ a ++ (("***").toList ++
        (x ++ (("***").toList ++ b))) :=
      List.mem_append_right _ (List.mem_append_left _ hdm)
    rw [markdown_to_html]
    rw [pre_passes_id _
      (hmemS _ '\n' (not_mem_of_all ha (by decide))
        hxnl (not_mem_of_all hb (by decide)) (by decide))
      (hmemS _ '\r' (not_mem_of_all ha (by decide))
        (not_mem_of_all hx (by decide)) (not_mem_of_all hb (by decide))
        (by decide))
      (hmemS _ '&' (not_mem_of_all ha (by decide))
        (not_mem_of_all hx (by decide)) (not_mem_of_all hb (by decide))
        (by decide))
      (hmemS _ '<' (not_mem_of_all ha (by decide))
        (not_mem_of_all hx (by decide)) (not_mem_of_all hb (by decide))
        (by decide))
      (hmemS _ '>' (not_mem_of_all ha (by decide))
        (not_mem_of_all hx (by decide)) (not_mem_of_all hb (by decide))
        (by decide))
      (hmemS _ '#' (not_mem_of_all ha (by decide))
        (not_mem_of_all hx (by decide)) (not_mem_of_all hb (by decide))
        (by decide))
      ⟨x0, hx0S _, fun h => by rw [h] at hx0cl; exact absurd hx0cl (by decide)⟩
      ⟨'*', hdS, by decide⟩
      ⟨'*', hdS, by decide⟩]
    rw [emphasisPass_match_star a x b hsa hsx hsb hua hux hub hxne hxnl]
    exact post_passes a x b ha hb hx
  · have hdm : ('_' : Char) ∈ ("___").toList := by decide
    have hdS : ('_' : Char) ∈ a ++ (("___").toList ++
        (x ++ (("___").toList ++ b))) :=
      List.mem_append_right _ (List.mem_append_left _ hdm)
    rw [markdown_to_html]
    rw [pre_passes_id _
      (hmemS _ '\n' (not_mem_of_all ha (by decide))
        hxnl (not_mem_of_all hb (by decide)) (by decide))
      (hmemS _ '\r' (not_mem_of_all ha (by decide))
        (not_mem_of_all hx (by decide)) (not_mem_of_all hb (by decide))
        (by decide))
      (hmemS _ '&' (not_mem_of_all ha (by decide))
        (not_mem_of_all hx (by decide)) (not_mem_of_all hb (by decide))
        (by decide))
      (hmemS _ '<' (not_mem_of_all ha (by decide))
        (not_mem_of_all hx (by decide)) (not_mem_of_all hb (by decide))
        (by decide))
      (hmemS _ '>' (not_mem_of_all ha (by decide))
        (not_mem_of_all hx (by decide)) (not_mem_of_all hb (by decide))
        (by decide))
      (hmemS _ '#' (not_mem_of_all ha (by decide))
        (not_mem_of_all hx (by decide)) (not_mem_of_all hb (by decide))
        (by decide))
      ⟨'_', hdS, by decide⟩
      ⟨'_', hdS, by decide⟩
      ⟨x0, hx0S _, fun h => by rw [h] at hx0cl; exact absurd hx0cl (by decide)⟩]
    rw [emphasisPass_match_und a x b hsa hsx hsb hua hux hub hxne hxnl]
    exact post_passes a x b ha hb hx

/-- C8 witness: the spec's own example `***bold-italic***` and its
underscore form. -/
theorem C8_triple_emphasis_witness :
    markdown_to_html (("***bold-italic***").toList) =
      ("<p><strong><em>bold-italic</em></strong></p>").toList ∧
    markdown_to_html (("___bold-italic___").toList) =
      ("<p><strong><em>bold-italic</em></strong></p>").toList := by
  have h := C8_triple_emphasis [] (("bold-italic").toList) []
    (by simp) (by simp) (by decide) (by decide)
  constructor
  · rw [show (("***bold-italic***").toList) =
      [] ++ (("***").toList ++ ((("bold-italic").toList) ++
        (("***").toList ++ ([] : Str)))) from rfl]
    rw [h.1]
    decide
  · rw [show (("___bold-italic___").toList) =
      [] ++ (("___").toList ++ ((("bold-italic").toList) ++
        (("___").toList ++ ([] : Str)))) from rfl]
    rw [h.2]
    decide

/-! ### parse_writing_markdown (scripts/build.py, lines 336-363) -/

/-- `re.match(r'^#\s+(.+)$', stripped)`: one hash, at least one whitespace
character, then a non-empty remainder; the group follows the greedy
whitespace run. -/
def h1Match : Str → Option Str
  | [] => none
  | c :: rest =>
    if c = '#' ∧ ¬(List.takeWhile isPySpaceChar rest).isEmpty ∧
        ¬(List.dropWhile isPySpaceChar rest).isEmpty then
      some (List.dropWhile isPySpaceChar rest)
    else none

/-- The header-scanning loop of `parse_writing_markdown`: the first
matching (stripped) line is the title, the second is the date and fixes
the body start index; with fewer than two headers the start index stays
zero. -/
def findTwoHeadersGo : List Str → Nat → Option Str → (Str × Str × Nat)
  | [], _, acc => (acc.getD [], [], 0)
  | l :: rest, i, acc =>
    match h1Match (pyStrip l), acc with
    | some t, none => findTwoHeadersGo rest (i + 1) (some t)
    | some d, some t => (t, d, i + 1)
    | none, _ => findTwoHeadersGo rest (i + 1) acc

/-- The record returned by `parse_writing_markdown`. -/
structure WritingParse where
  title : Str
  date : Str
  content : Str
deriving DecidableEq

/-- Shallow embedding of `parse_writing_markdown` (scripts/build.py,
lines 336-363). -/
def parse_writing_markdown (c : Str) : WritingParse :=
  let lines := splitOnNl c
  let r := findTwoHeadersGo lines 0 none
  { title := r.1, date := r.2.1,
    content := markdown_to_html (pyStrip (joinNl (lines.drop r.2.2))) }

/-- The text of the first single-level header line of a document. -/
def firstHeaderTitle (c : Str) : Str :=
  ((splitOnNl c).findSome? (fun l => h1Match (pyStrip l))).getD []

/-- Predicate counted by the exactly-one-header hypothesis. -/
def isHeaderLine (l : Str) : Bool := (h1Match (pyStrip l)).isSome

theorem findTwoHeadersGo_zero : ∀ (ls : List Str) (i : Nat) (acc : Option Str),
    (∀ l ∈ ls, h1Match (pyStrip l) = none) →
    findTwoHeadersGo ls i acc = (acc.getD [], [], 0) := by
  intro ls
  induction ls with
  | nil => intro i acc _; rfl
  | cons l rest ih =>
    intro i acc h
    have hm := h l (List.mem_cons_self _ _)
    simp only [findTwoHeadersGo, hm]
    exact ih (i + 1) acc (fun x hx => h x (List.mem_cons_of_mem _ hx))

theorem findTwoHeadersGo_one : ∀ (ls : List Str) (i : Nat),
    List.countP isHeaderLine ls = 1 →
    findTwoHeadersGo ls i none =
      ((ls.findSome? (fun l => h1Match (pyStrip l))).getD [], [], 0) := by
  intro ls
  induction ls with
  | nil => intro i h; simp [List.countP, List.countP.go] at h
  | cons l rest ih =>
    intro i h
    rw [List.countP_cons] at h
    cases hm : h1Match (pyStrip l) with
    | some t =>
      have hl : isHeaderLine l = true := by rw [isHeaderLine, hm]; rfl
      rw [hl] at h
      simp at h
      have hnone : ∀ x ∈ rest, h1Match (pyStrip x) = none := by
        intro x hx
        have hx3 := h x hx
        rw [isHeaderLine] at hx3
        cases hx2 : h1Match (pyStrip x) with
        | none => rfl
        | some y => rw [hx2] at hx3; simp at hx3
      simp only [findTwoHeadersGo, hm]
      rw [findTwoHeadersGo_zero rest (i + 1) (some t) hnone]
      simp [List.findSome?_cons, hm]
    | none =>
      have hl : isHeaderLine l = false := by rw [isHeaderLine, hm]; rfl
      rw [hl] at h
      simp at h
      simp only [findTwoHeadersGo, hm]
      rw [ih (i + 1) h]
      simp [List.findSome?_cons, hm]

theorem list_map_fixed {f : Str → Str} : ∀ (ls : List Str),
    (∀ l ∈ ls, f l = l) → ls.map f = ls := by
  intro ls
  induction ls with
  | nil => intro _; rfl
  | cons l rest ih =>
    intro h
    rw [List.map_cons, h l (List.mem_cons_self _ _),
      ih (fun x hx => h x (List.mem_cons_of_mem _ hx))]

theorem mapLines_id {f : Str → Str} {s : Str}
    (h : ∀ l ∈ splitOnNl s, f l = l) : mapLines f s = s := by
  rw [mapLines, list_map_fixed _ h, joinNl_splitOnNl]

theorem splitOnNl_ne_nil : ∀ (s : Str), splitOnNl s ≠ [] := by
  intro s
  cases s with
  | nil => simp [splitOnNl]
  | cons c cs =>
    rw [splitOnNl]
    cases splitOnNl cs with
    | nil => simp
    | cons h t =>
      show (if c = '\n' then [] :: h :: t else (c :: h) :: t) ≠ []
      by_cases hc : c = '\n'
      · rw [if_pos hc]; simp
      · rw [if_neg hc]; simp

theorem splitOnNl_append {u : Str} (hu : '\n' ∉ u) : ∀ (v : Str),
    splitOnNl (u ++ '\n' :: v) = u :: splitOnNl v := by
  induction u with
  | nil =>
    intro v
    rw [List.nil_append, splitOnNl]
    cases hv : splitOnNl v with
    | nil => exact absurd hv (splitOnNl_ne_nil v)
    | cons h t =>
      show (if '\n' = '\n' then [] :: h :: t else ('\n' :: h) :: t)
        = [] :: h :: t
      rw [if_pos rfl]
  | cons c cs ih =>
    intro v
    have hc : c ≠ '\n' := fun h => hu (h ▸ List.mem_cons_self _ _)
    have hcs : '\n' ∉ cs := fun hm => hu (List.mem_cons_of_mem _ hm)
    rw [List.cons_append, splitOnNl, ih hcs v]
    show (if c = '\n' then [] :: cs :: splitOnNl v
      else (c :: cs) :: splitOnNl v) = (c :: cs) :: splitOnNl v
    rw [if_neg hc]

theorem mapLines_decomp {f : Str → Str} {u : Str} (hu : '\n' ∉ u) (v : Str) :
    mapLines f (u ++ '\n' :: v) = f u ++ '\n' :: mapLines f v := by
  rw [mapLines, splitOnNl_append hu v, List.map_cons]
  obtain ⟨w, ws, hw⟩ : ∃ w ws, splitOnNl v = w :: ws := by
    cases hv : splitOnNl v with
    | nil => exact absurd hv (splitOnNl_ne_nil v)
    | cons w ws => exact ⟨w, ws, rfl⟩
  rw [hw, List.map_cons, joinNl, mapLines, hw, List.map_cons]

theorem mem_of_mem_splitOnNl : ∀ {s l : Str}, l ∈ splitOnNl s →
    ∀ {c : Char}, c ∈ l → c ∈ s := by
  intro s
  induction s with
  | nil =>
    intro l hl c hc
    simp [splitOnNl] at hl
    subst hl
    exact absurd hc (List.not_mem_nil c)
  | cons x xs ih =>
    intro l hl c hc
    rw [splitOnNl] at hl
    cases hxs : splitOnNl xs with
    | nil => exact absurd hxs (splitOnNl_ne_nil xs)
    | cons h t =>
      rw [hxs] at hl
      have hl2 : l ∈ (if x = '\n' then [] :: h :: t else (x :: h) :: t) := hl
      by_cases hx : x = '\n'
      · rw [if_pos hx] at hl2
        rcases List.mem_cons.mp hl2 with h1 | h1
        · subst h1; exact absurd hc (List.not_mem_nil c)
        · exact List.mem_cons_of_mem _ (ih (hxs ▸ h1) hc)
      · rw [if_neg hx] at hl2
        rcases List.mem_cons.mp hl2 with h1 | h1
        · subst h1
          rcases List.mem_cons.mp hc with h2 | h2
          · exact h2 ▸ List.mem_cons_self _ _
          · exact List.mem_cons_of_mem _
              (ih (hxs ▸ List.mem_cons_self _ _) h2)
        · exact List.mem_cons_of_mem _
            (ih (hxs ▸ List.mem_cons_of_mem _ h1) hc)

theorem mem_pyStripRight {c : Char} : ∀ {s : Str},
    c ∈ pyStripRight s → c ∈ s := by
  intro s
  induction s with
  | nil => intro h; exact absurd h (List.not_mem_nil c)
  | cons x xs ih =>
    intro h
    rw [pyStripRight, List.foldr_cons] at h
    by_cases hc : (List.foldr (fun c acc =>
        if acc.isEmpty && isPySpaceChar c then [] else c :: acc) [] xs).isEmpty
        && isPySpaceChar x
    · rw [if_pos hc] at h
      exact absurd h (List.not_mem_nil c)
    · rw [if_neg hc] at h
      rcases List.mem_cons.mp h with h1 | h1
      · exact h1 ▸ List.mem_cons_self _ _
      · exact List.mem_cons_of_mem _ (ih h1)

theorem mem_pyStrip {c : Char} {s : Str} (h : c ∈ pyStrip s) : c ∈ s := by
  rw [pyStrip] at h
  exact mem_pyStripRight ((List.dropWhile_sublist _).subset h)

theorem splitBlocks_append {u : Str} (hu : '\n' ∉ u) : ∀ (v : Str),
    splitBlocks (u ++ '\n' :: '\n' :: v) = u :: splitBlocks v := by
  induction u with
  | nil => intro v; rw [List.nil_append, splitBlocks, if_pos ⟨rfl, rfl⟩]
  | cons c cs ih =>
    intro v
    have hc : c ≠ '\n' := fun h => hu (h ▸ List.mem_cons_self _ _)
    have hcs : '\n' ∉ cs := fun hm => hu (List.mem_cons_of_mem _ hm)
    cases cs with
    | nil =>
      rw [List.cons_append, List.nil_append, splitBlocks,
        if_neg (fun hp => hc hp.1)]
      rw [show splitBlocks ('\n' :: '\n' :: v) = [] :: splitBlocks v from
        by rw [splitBlocks, if_pos ⟨rfl, rfl⟩]]
    | cons c2 cs2 =>
      rw [List.cons_append, List.cons_append, splitBlocks,
        if_neg (fun hp => hc hp.1), ← List.cons_append, ih hcs v]

theorem bodyChar_ne {ch e : Char}
    (h : ch.isAlphanum = true ∨ ch = ' ' ∨ ch = '\n')
    (he : e.isAlphanum = false) (he2 : e ≠ ' ') (he3 : e ≠ '\n') : ch ≠ e := by
  rcases h with h | h | h
  · exact alnum_ne h he
  · intro heq; rw [heq] at h; exact he2 h
  · intro heq; rw [heq] at h; exact he3 h

theorem h1Match_hash {t : Str} (ht : t ≠ [])
    (hhd : ∀ c, t.head? = some c → isPySpaceChar c = false) :
    h1Match ('#' :: ' ' :: t) = some t := by
  have hsp : isPySpaceChar ' ' = true := by decide
  have hdw : List.dropWhile isPySpaceChar (' ' :: t) = t := by
    rw [List.dropWhile_cons, if_pos hsp, dropWhile_id_of_head hhd]
  have hcond : '#' = '#' ∧
      ¬(List.takeWhile isPySpaceChar (' ' :: t)).isEmpty = true ∧
      ¬(List.dropWhile isPySpaceChar (' ' :: t)).isEmpty = true := by
    refine ⟨rfl, ?_, ?_⟩
    · rw [List.takeWhile_cons, if_pos hsp]
      simp
    · rw [hdw]
      cases t with
      | nil => exact absurd rfl ht
      | cons a as => simp
  rw [h1Match, if_pos hcond, hdw]

theorem h1Match_none_no_hash {l : Str} (h : '#' ∉ l) : h1Match l = none := by
  cases l with
  | nil => rfl
  | cons c rest =>
    have hc : c ≠ '#' := fun heq => h (heq ▸ List.mem_cons_self _ _)
    rw [h1Match, if_neg (fun hp => hc hp.1)]

theorem headerLineK_one_hash {t : Str}
    (hhd : ∀ c, t.head? = some c → isPySpaceChar c = false) :
    headerLineK 1 ('#' :: ' ' :: t) = some t := by
  have hsp : isPySpaceChar ' ' = true := by decide
  have hdw : List.dropWhile isPySpaceChar (' ' :: t) = t := by
    rw [List.dropWhile_cons, if_pos hsp, dropWhile_id_of_head hhd]
  have hst : isStart (List.replicate 1 '#') ('#' :: ' ' :: t) = true := by
    rw [show List.replicate 1 '#' = ['#'] from rfl]
    simp [isStart]
  rw [headerLineK, if_pos hst]
  show (if isPySpaceChar ' ' = true then
      some (List.dropWhile isPySpaceChar (' ' :: t)) else none) = some t
  rw [if_pos hsp, hdw]

theorem headerLineK_two_plus (m : Nat) (t : Str) :
    headerLineK (m + 2) ('#' :: ' ' :: t) = none := by
  rw [headerLineK, if_neg]
  intro hcon
  have hrep : List.replicate (m + 2) '#' = '#' :: '#' :: List.replicate m '#' :=
    rfl
  rw [hrep, isStart, Bool.and_eq_true] at hcon
  have h2 := hcon.2
  rw [isStart_cons_false (by decide : ('#' : Char) ≠ ' ')] at h2
  simp at h2

theorem headerLine_hash {t : Str}
    (hhd : ∀ c, t.head? = some c → isPySpaceChar c = false) :
    headerLine ('#' :: ' ' :: t)
      = ("<h1>").toList ++ t ++ ("</h1>").toList := by
  have h6 : headerLineK 6 ('#' :: ' ' :: t) = none := headerLineK_two_plus 4 t
  have h5 : headerLineK 5 ('#' :: ' ' :: t) = none := headerLineK_two_plus 3 t
  have h4 : headerLineK 4 ('#' :: ' ' :: t) = none := headerLineK_two_plus 2 t
  have h3 : headerLineK 3 ('#' :: ' ' :: t) = none := headerLineK_two_plus 1 t
  have h2 : headerLineK 2 ('#' :: ' ' :: t) = none := headerLineK_two_plus 0 t
  have h1 : headerLineK 1 ('#' :: ' ' :: t) = some t := headerLineK_one_hash hhd
  rw [headerLine, h6, h5, h4, h3, h2, h1]
  rfl

theorem pyStrip_hash_line {t : Str} (ht : t ≠ [])
    (ha : ∀ c ∈ t, c.isAlphanum = true) :
    pyStrip ('#' :: ' ' :: t) = '#' :: ' ' :: t := by
  apply pyStrip_id
  · intro c hc
    simp only [List.head?, Option.some.injEq] at hc
    rw [← hc]
    decide
  · have : ('#' :: ' ' :: t) = ['#', ' '] ++ t := rfl
    rw [this, lastIsSpace_append ht]
    exact lastIsSpace_false_of_all (fun c hc => alnum_not_space (ha c hc))

/-- C10: when a writing source has exactly one line whose stripped form
matches the single-hash header pattern, `parse_writing_markdown` returns
that header's text as the title, the empty string as the date, and the
rendering of the entire stripped input as the content (the body start
index stays 0, since it only advances when a second header is found); on
sources of the shape `"# title\n\nbody"` the content therefore starts
with the title rendered again as an `<h1>` heading. -/
theorem C10_single_header :
    (∀ c : Str, List.countP isHeaderLine (splitOnNl c) = 1 →
      parse_writing_markdown c =
        ⟨firstHeaderTitle c, [], markdown_to_html (pyStrip c)⟩) ∧
    (∀ t body : Str, t ≠ [] → (∀ ch ∈ t, ch.isAlphanum = true) →
      body ≠ [] →
      (∀ ch ∈ body, ch.isAlphanum = true ∨ ch = ' ' ∨ ch = '\n') →
      lastIsSpace body = false →
      (parse_writing_markdown
          ('#' :: ' ' :: (t ++ '\n' :: '\n' :: body))).title = t ∧
      (parse_writing_markdown
          ('#' :: ' ' :: (t ++ '\n' :: '\n' :: body))).date = [] ∧
      ∃ r : Str,
        (parse_writing_markdown
            ('#' :: ' ' :: (t ++ '\n' :: '\n' :: body))).content
          = ("<h1>").toList ++ t ++ ("</h1>").toList ++ r) := by
  have hgen : ∀ c : Str, List.countP isHeaderLine (splitOnNl c) = 1 →
      parse_writing_markdown c =
        ⟨firstHeaderTitle c, [], markdown_to_html (pyStrip c)⟩ := by
    intro c h
    have hf := findTwoHeadersGo_one (splitOnNl c) 0 h
    simp only [parse_writing_markdown, hf, List.drop_zero, joinNl_splitOnNl,
      firstHeaderTitle]
  refine ⟨hgen, ?_⟩
  intro t body ht ha hb hbc hbl
  have hthd : ∀ c, t.head? = some c → isPySpaceChar c = false := by
    intro c hc
    cases t with
    | nil => exact absurd rfl ht
    | cons x xs =>
      simp only [List.head?, Option.some.injEq] at hc
      rw [← hc]
      exact alnum_not_space (ha x (List.mem_cons_self _ _))
  have hnl_t : '\n' ∉ t := not_mem_of_all ha (by decide)
  have hnl1 : '\n' ∉ ('#' :: ' ' :: t) := by
    intro hm
    rcases List.mem_cons.mp hm with h1 | h1
    · exact absurd h1 (by decide)
    rcases List.mem_cons.mp h1 with h2 | h2
    · exact absurd h2 (by decide)
    · exact hnl_t h2
  have hsplit : splitOnNl ('#' :: ' ' :: (t ++ '\n' :: '\n' :: body))
      = ('#' :: ' ' :: t) :: [] :: splitOnNl body := by
    have e2 := splitOnNl_append (by simp : '\n' ∉ ([] : Str)) body
    rw [List.nil_append] at e2
    calc splitOnNl ('#' :: ' ' :: (t ++ '\n' :: '\n' :: body))
        = splitOnNl (('#' :: ' ' :: t) ++ '\n' :: ('\n' :: body)) := rfl
      _ = ('#' :: ' ' :: t) :: splitOnNl ('\n' :: body) :=
          splitOnNl_append hnl1 _
      _ = ('#' :: ' ' :: t) :: [] :: splitOnNl body := by rw [e2]
  have hpy1 : pyStrip ('#' :: ' ' :: t) = '#' :: ' ' :: t :=
    pyStrip_hash_line ht ha
  have hH1 : isHeaderLine ('#' :: ' ' :: t) = true := by
    rw [isHeaderLine, hpy1, h1Match_hash ht hthd]
    rfl
  have hHb : ∀ l ∈ splitOnNl body, isHeaderLine l = false := by
    intro l hl
    have hhash : '#' ∉ l := by
      intro hcm
      rcases hbc '#' (mem_of_mem_splitOnNl hl hcm) with h1 | h1 | h1
      · exact absurd h1 (by decide)
      · exact absurd h1 (by decide)
      · exact absurd h1 (by decide)
    rw [isHeaderLine,
      h1Match_none_no_hash (fun hcm => hhash (mem_pyStrip hcm))]
    rfl
  have hcount : List.countP isHeaderLine
      (splitOnNl ('#' :: ' ' :: (t ++ '\n' :: '\n' :: body))) = 1 := by
    have hHb2 : ∀ a ∈ splitOnNl body, ¬ isHeaderLine a = true := by
      intro a hx
      rw [hHb a hx]
      simp
    rw [hsplit, List.countP_cons, List.countP_cons,
      List.countP_eq_zero.mpr hHb2, hH1]
    rfl
  have hmain := hgen _ hcount
  have hftitle : firstHeaderTitle
      ('#' :: ' ' :: (t ++ '\n' :: '\n' :: body)) = t := by
    rw [firstHeaderTitle, hsplit, List.findSome?_cons, hpy1,
      h1Match_hash ht hthd]
    rfl
  have htitle : (parse_writing_markdown
      ('#' :: ' ' :: (t ++ '\n' :: '\n' :: body))).title = t := by
    rw [hmain, hftitle]
  have hdate : (parse_writing_markdown
      ('#' :: ' ' :: (t ++ '\n' :: '\n' :: body))).date = [] := by
    rw [hmain]
  have hassoc : t ++ '\n' :: '\n' :: body = (t ++ ['\n', '\n']) ++ body :=
    (List.append_assoc t ['\n', '\n'] body).symm
  have hls0 : lastIsSpace
      ('#' :: ' ' :: (t ++ '\n' :: '\n' :: body)) = false := by
    rw [show ('#' :: ' ' :: (t ++ '\n' :: '\n' :: body))
        = ('#' :: ' ' :: (t ++ ['\n', '\n'])) ++ body from by
          rw [hassoc]; rfl,
      lastIsSpace_append hb]
    exact hbl
  have hhd0 : ∀ ch,
      ('#' :: ' ' :: (t ++ '\n' :: '\n' :: body)).head? = some ch →
      isPySpaceChar ch = false := by
    intro ch hch
    simp only [List.head?, Option.some.injEq] at hch
    rw [← hch]
    decide
  have hpyc : pyStrip ('#' :: ' ' :: (t ++ '\n' :: '\n' :: body))
      = '#' :: ' ' :: (t ++ '\n' :: '\n' :: body) := pyStrip_id hhd0 hls0
  have hmem : ∀ ch ∈ ('#' :: ' ' :: (t ++ '\n' :: '\n' :: body)),
      ch = '#' ∨ ch = ' ' ∨ ch = '\n' ∨ ch.isAlphanum = true := by
    intro ch hch
    rcases List.mem_cons.mp hch with h1 | h1
    · exact Or.inl h1
    rcases List.mem_cons.mp h1 with h2 | h2
    · exact Or.inr (Or.inl h2)
    rcases List.mem_append.mp h2 with h3 | h3
    · exact Or.inr (Or.inr (Or.inr (ha ch h3)))
    rcases List.mem_cons.mp h3 with h4 | h4
    · exact Or.inr (Or.inr (Or.inl h4))
    rcases List.mem_cons.mp h4 with h5 | h5
    · exact Or.inr (Or.inr (Or.inl h5))
    rcases hbc ch h5 with h6 | h6 | h6
    · exact Or.inr (Or.inr (Or.inr h6))
    · exact Or.inr (Or.inl h6)
    · exact Or.inr (Or.inr (Or.inl h6))
  have hno : ∀ e : Char, e ≠ '#' → e ≠ ' ' → e ≠ '\n' →
      e.isAlphanum = false →
      e ∉ ('#' :: ' ' :: (t ++ '\n' :: '\n' :: body)) := by
    intro e h1 h2 h3 h4 hc
    rcases hmem e hc with h5 | h5 | h5 | h5
    · exact h1 h5
    · exact h2 h5
    · exact h3 h5
    · rw [h4] at h5; exact absurd h5 (by decide)
  have hcr : '\r' ∉ ('#' :: ' ' :: (t ++ '\n' :: '\n' :: body)) :=
    hno '\r' (by decide) (by decide) (by decide) (by decide)
  have hamp : '&' ∉ ('#' :: ' ' :: (t ++ '\n' :: '\n' :: body)) :=
    hno '&' (by decide) (by decide) (by decide) (by decide)
  have hlt0 : '<' ∉ ('#' :: ' ' :: (t ++ '\n' :: '\n' :: body)) :=
    hno '<' (by decide) (by decide) (by decide) (by decide)
  have hgt0 : '>' ∉ ('#' :: ' ' :: (t ++ '\n' :: '\n' :: body)) :=
    hno '>' (by decide) (by decide) (by decide) (by decide)
  have m1 : normalizeNl ('#' :: ' ' :: (t ++ '\n' :: '\n' :: body))
      = '#' :: ' ' :: (t ++ '\n' :: '\n' :: body) := normalizeNl_id _ hcr
  have m2 : mdEscape ('#' :: ' ' :: (t ++ '\n' :: '\n' :: body))
      = '#' :: ' ' :: (t ++ '\n' :: '\n' :: body) :=
    mdEscape_id hamp hlt0 hgt0
  have m3 : blockquotePass ('#' :: ' ' :: (t ++ '\n' :: '\n' :: body))
      = '#' :: ' ' :: (t ++ '\n' :: '\n' :: body) := by
    rw [blockquotePass]
    have hmap : mapLines blockquoteLine
        ('#' :: ' ' :: (t ++ '\n' :: '\n' :: body))
        = '#' :: ' ' :: (t ++ '\n' :: '\n' :: body) := by
      apply mapLines_id
      intro l hl
      rw [hsplit] at hl
      rcases List.mem_cons.mp hl with h1 | h1
      · subst h1
        apply blockquoteLine_id
        rw [show ("&gt;").toList = '&' :: ("gt;").toList from rfl]
        exact isStart_cons_false (by decide)
      rcases List.mem_cons.mp h1 with h2 | h2
      · subst h2; rfl
      · apply blockquoteLine_id
        rw [show ("&gt;").toList = '&' :: ("gt;").toList from rfl]
        apply isStart_eq_false_of_not_mem
        intro hcm
        rcases hbc '&' (mem_of_mem_splitOnNl h2 hcm) with h3 | h3 | h3
        · exact absurd h3 (by decide)
        · exact absurd h3 (by decide)
        · exact absurd h3 (by decide)
    rw [hmap,
      show ("</blockquote>\n<blockquote>").toList
        = '<' :: ("/blockquote>\n<blockquote>").toList from rfl,
      replaceAll_id hlt0]
  have hLe : headerLine ([] : Str) = [] := rfl
  have hHdef : headerLine ('#' :: ' ' :: t)
      = ("<h1>").toList ++ t ++ ("</h1>").toList := headerLine_hash hthd
  have hbodymap : mapLines headerLine body = body := by
    apply mapLines_id
    intro l hl
    apply headerLine_id
    apply isStart_eq_false_of_not_mem
    intro hcm
    rcases hbc '#' (mem_of_mem_splitOnNl hl hcm) with h3 | h3 | h3
    · exact absurd h3 (by decide)
    · exact absurd h3 (by decide)
    · exact absurd h3 (by decide)
  have m4 : mapLines headerLine ('#' :: ' ' :: (t ++ '\n' :: '\n' :: body))
      = (("<h1>").toList ++ t ++ ("</h1>").toList)
          ++ '\n' :: '\n' :: body := by
    calc mapLines headerLine ('#' :: ' ' :: (t ++ '\n' :: '\n' :: body))
        = mapLines headerLine
            (('#' :: ' ' :: t) ++ '\n' :: ('\n' :: body)) := rfl
      _ = headerLine ('#' :: ' ' :: t) ++ '\n'
            :: mapLines headerLine ('\n' :: body) := mapLines_decomp hnl1 _
      _ = headerLine ('#' :: ' ' :: t) ++ '\n'
            :: (headerLine [] ++ '\n' :: mapLines headerLine body) := by
          rw [show mapLines headerLine ('\n' :: body)
              = mapLines headerLine (([] : Str) ++ '\n' :: body) from rfl,
            mapLines_decomp (by simp) body]
      _ = (("<h1>").toList ++ t ++ ("</h1>").toList)
            ++ '\n' :: '\n' :: body := by
          rw [hHdef, hLe, hbodymap, List.nil_append]
  have hnlH : '\n' ∉ (("<h1>").toList ++ t ++ ("</h1>").toList) := by
    apply not_mem_append
    · exact not_mem_append (by decide) hnl_t
    · decide
  have hsplit2 : splitOnNl ((("<h1>").toList ++ t ++ ("</h1>").toList)
        ++ '\n' :: '\n' :: body)
      = (("<h1>").toList ++ t ++ ("</h1>").toList)
          :: [] :: splitOnNl body := by
    have e2 := splitOnNl_append (by simp : '\n' ∉ ([] : Str)) body
    rw [List.nil_append] at e2
    rw [show (("<h1>").toList ++ t ++ ("</h1>").toList) ++ '\n' :: '\n' :: body
        = (("<h1>").toList ++ t ++ ("</h1>").toList)
            ++ '\n' :: ('\n' :: body) from rfl,
      splitOnNl_append hnlH, e2]
  have hmem2 : ∀ ch ∈ ((("<h1>").toList ++ t ++ ("</h1>").toList)
        ++ '\n' :: '\n' :: body),
      ch ∈ ("<h1>").toList ∨ ch ∈ ("</h1>").toList ∨ ch.isAlphanum = true
        ∨ ch = ' ' ∨ ch = '\n' := by
    intro ch hch
    rcases List.mem_append.mp hch with h1 | h1
    · rcases List.mem_append.mp h1 with h2 | h2
      · rcases List.mem_append.mp h2 with h3 | h3
        · exact Or.inl h3
        · exact Or.inr (Or.inr (Or.inl (ha ch h3)))
      · exact Or.inr (Or.inl h2)
    rcases List.mem_cons.mp h1 with h2 | h2
    · exact Or.inr (Or.inr (Or.inr (Or.inr h2)))
    rcases List.mem_cons.mp h2 with h3 | h3
    · exact Or.inr (Or.inr (Or.inr (Or.inr h3)))
    rcases hbc ch h3 with h4 | h4 | h4
    · exact Or.inr (Or.inr (Or.inl h4))
    · exact Or.inr (Or.inr (Or.inr (Or.inl h4)))
    · exact Or.inr (Or.inr (Or.inr (Or.inr h4)))
  have hno2 : ∀ e : Char, e ∉ ("<h1>").toList → e ∉ ("</h1>").toList →
      e.isAlphanum = false → e ≠ ' ' → e ≠ '\n' →
      e ∉ ((("<h1>").toList ++ t ++ ("</h1>").toList)
        ++ '\n' :: '\n' :: body) := by
    intro e h1 h2 h3 h4 h5 hc
    rcases hmem2 e hc with h6 | h6 | h6 | h6 | h6
    · exact h1 h6
    · exact h2 h6
    · rw [h3] at h6; exact absurd h6 (by decide)
    · exact h4 h6
    · exact h5 h6
  have hstar : '*' ∉ ((("<h1>").toList ++ t ++ ("</h1>").toList)
      ++ '\n' :: '\n' :: body) :=
    hno2 '*' (by decide) (by decide) (by decide) (by decide) (by decide)
  have hund : '_' ∉ ((("<h1>").toList ++ t ++ ("</h1>").toList)
      ++ '\n' :: '\n' :: body) :=
    hno2 '_' (by decide) (by decide) (by decide) (by decide) (by decide)
  have hbtick : btick ∉ ((("<h1>").toList ++ t ++ ("</h1>").toList)
      ++ '\n' :: '\n' :: body) :=
    hno2 btick (by decide) (by decide) (by decide) (by decide) (by decide)
  have hlb : '[' ∉ ((("<h1>").toList ++ t ++ ("</h1>").toList)
      ++ '\n' :: '\n' :: body) :=
    hno2 '[' (by decide) (by decide) (by decide) (by decide) (by decide)
  have m5 : mapLines hrLine ((("<h1>").toList ++ t ++ ("</h1>").toList)
        ++ '\n' :: '\n' :: body)
      = (("<h1>").toList ++ t ++ ("</h1>").toList)
          ++ '\n' :: '\n' :: body := by
    apply mapLines_id
    intro l hl
    rw [hsplit2] at hl
    rcases List.mem_cons.mp hl with h1 | h1
    · subst h1
      apply hrLine_id
      · exact ⟨'<',
          List.mem_append_left _ (List.mem_append_left _ (by decide)),
          by decide⟩
      · exact ⟨'<',
          List.mem_append_left _ (List.mem_append_left _ (by decide)),
          by decide⟩
      · exact ⟨'<',
          List.mem_append_left _ (List.mem_append_left _ (by decide)),
          by decide⟩
    rcases List.mem_cons.mp h1 with h2 | h2
    · subst h2; rfl
    · cases l with
      | nil => rfl
      | cons ch cs =>
        have hch := hbc ch
          (mem_of_mem_splitOnNl h2 (List.mem_cons_self _ _))
        apply hrLine_id
        · exact ⟨ch, List.mem_cons_self _ _,
            bodyChar_ne hch (by decide) (by decide) (by decide)⟩
        · exact ⟨ch, List.mem_cons_self _ _,
            bodyChar_ne hch (by decide) (by decide) (by decide)⟩
        · exact ⟨ch, List.mem_cons_self _ _,
            bodyChar_ne hch (by decide) (by decide) (by decide)⟩
  have m6 : emphasisPass ((("<h1>").toList ++ t ++ ("</h1>").toList)
        ++ '\n' :: '\n' :: body)
      = (("<h1>").toList ++ t ++ ("</h1>").toList)
          ++ '\n' :: '\n' :: body := by
    rw [emphasisPass,
      show ("***").toList = '*' :: ("**").toList from rfl,
      show ("___").toList = '_' :: ("__").toList from rfl,
      show ("**").toList = '*' :: ("*").toList from rfl,
      show ("__").toList = '_' :: ("_").toList from rfl,
      show ("*").toList = '*' :: ([] : Str) from rfl,
      show ("_").toList = '_' :: ([] : Str) from rfl,
      subLazy_id hstar, subLazy_id hund, subLazy_id hstar, subLazy_id hund,
      subLazy_id hstar, subLazy_id hund]
  have m7 : codePass ((("<h1>").toList ++ t ++ ("</h1>").toList)
        ++ '\n' :: '\n' :: body)
      = (("<h1>").toList ++ t ++ ("</h1>").toList)
          ++ '\n' :: '\n' :: body := by
    rw [codePass]
    exact subLazy_id hbtick
  have m8 : linkPass ((("<h1>").toList ++ t ++ ("</h1>").toList)
        ++ '\n' :: '\n' :: body)
      = (("<h1>").toList ++ t ++ ("</h1>").toList)
          ++ '\n' :: '\n' :: body := linkPass_id hlb
  have m9 : mapLines listItemLine
      ((("<h1>").toList ++ t ++ ("</h1>").toList) ++ '\n' :: '\n' :: body)
      = (("<h1>").toList ++ t ++ ("</h1>").toList)
          ++ '\n' :: '\n' :: body := by
    apply mapLines_id
    intro l hl
    rw [hsplit2] at hl
    rcases List.mem_cons.mp hl with h1 | h1
    · subst h1
      apply listItemLine_id
      intro c hc
      rw [show (("<h1>").toList ++ t ++ ("</h1>").toList)
          = '<' :: (("h1>").toList ++ t ++ ("</h1>").toList) from rfl] at hc
      simp only [List.head?, Option.some.injEq] at hc
      rw [← hc]
      decide
    rcases List.mem_cons.mp h1 with h2 | h2
    · subst h2
      apply listItemLine_id
      intro c hc
      simp at hc
    · apply listItemLine_id
      intro c hc
      cases l with
      | nil => simp at hc
      | cons ch cs =>
        simp only [List.head?, Option.some.injEq] at hc
        rw [← hc]
        have hch := hbc ch
          (mem_of_mem_splitOnNl h2 (List.mem_cons_self _ _))
        have h5 : ch ≠ '*' :=
          bodyChar_ne hch (by decide) (by decide) (by decide)
        have h6 : ch ≠ '-' :=
          bodyChar_ne hch (by decide) (by decide) (by decide)
        simp [beq_iff_eq, h5, h6]
  have m10 : wrapLists ((("<h1>").toList ++ t ++ ("</h1>").toList)
        ++ '\n' :: '\n' :: body)
      = (("<h1>").toList ++ t ++ ("</h1>").toList)
          ++ '\n' :: '\n' :: body := by
    apply wrapLists_id
    intro l hl
    rw [hsplit2] at hl
    rcases List.mem_cons.mp hl with h1 | h1
    · subst h1
      rw [show (("<h1>").toList ++ t ++ ("</h1>").toList)
          = '<' :: 'h' :: (("1>").toList ++ t ++ ("</h1>").toList) from rfl,
        isLiLine, show ("<li>").toList = '<' :: 'l' :: ("i>").toList from rfl,
        isStart, isStart_cons_false (by decide : ('l' : Char) ≠ 'h')]
      simp
    rcases List.mem_cons.mp h1 with h2 | h2
    · subst h2; rfl
    · cases l with
      | nil => rfl
      | cons ch cs =>
        have hch := hbc ch
          (mem_of_mem_splitOnNl h2 (List.mem_cons_self _ _))
        have hne : ('<' : Char) ≠ ch := by
          intro heq
          rw [← heq] at hch
          rcases hch with h | h | h
          · exact absurd h (by decide)
          · exact absurd h (by decide)
          · exact absurd h (by decide)
        exact isLiLine_of_ne hne
  have hblocks : splitBlocks ((("<h1>").toList ++ t ++ ("</h1>").toList)
        ++ '\n' :: '\n' :: body)
      = (("<h1>").toList ++ t ++ ("</h1>").toList) :: splitBlocks body :=
    splitBlocks_append hnlH body
  have hpyH : pyStrip (("<h1>").toList ++ t ++ ("</h1>").toList)
      = ("<h1>").toList ++ t ++ ("</h1>").toList := by
    apply pyStrip_id
    · intro c hc
      rw [show (("<h1>").toList ++ t ++ ("</h1>").toList)
          = '<' :: (("h1>").toList ++ t ++ ("</h1>").toList) from rfl] at hc
      simp only [List.head?, Option.some.injEq] at hc
      rw [← hc]
      decide
    · rw [lastIsSpace_append (by decide : ("</h1>").toList ≠ [])]
      decide
  have hsbH : startsBlockTag
      (("<h1>").toList ++ t ++ ("</h1>").toList) = true := by
    rw [startsBlockTag]
    apply List.any_eq_true.mpr
    refine ⟨("<h1").toList, by decide, ?_⟩
    exact isStart_append_self (("<h1").toList)
      ('>' :: (t ++ ("</h1>").toList))
  have m11 : ∃ L : List Str,
      paragraphWrap ((("<h1>").toList ++ t ++ ("</h1>").toList)
        ++ '\n' :: '\n' :: body)
      = joinBlocks ((("<h1>").toList ++ t ++ ("</h1>").toList) :: L) := by
    refine ⟨(((splitBlocks body).map pyStrip).filter
        (fun b => !b.isEmpty)).map
      (fun b => if startsBlockTag b then b
        else ("<p>").toList ++
          replaceAll (("\n").toList) (("<br>").toList) b
            ++ ("</p>").toList), ?_⟩
    rw [paragraphWrap, hblocks, List.map_cons, hpyH, List.filter_cons]
    rw [if_pos (show (!(("<h1>").toList ++ t ++ ("</h1>").toList).isEmpty)
        = true from rfl)]
    rw [List.map_cons]
    rw [if_pos hsbH]
  obtain ⟨L, hL⟩ := m11
  refine ⟨htitle, hdate, ?_⟩
  have hcontent : (parse_writing_markdown
      ('#' :: ' ' :: (t ++ '\n' :: '\n' :: body))).content
      = joinBlocks ((("<h1>").toList ++ t ++ ("</h1>").toList) :: L) := by
    rw [hmain, hpyc, markdown_to_html, m1, m2, m3, m4, m5, m6, m7, m8, m9,
      m10, hL]
  rw [hcontent]
  cases L with
  | nil => exact ⟨[], by rw [List.append_nil, joinBlocks]⟩
  | cons b bs =>
    exact ⟨'\n' :: '\n' :: joinBlocks (b :: bs), by rw [joinBlocks]⟩

theorem C10_single_header_witness :
    parse_writing_markdown
        ('#' :: ' ' :: (("Hello").toList ++ '\n' :: '\n' :: ("world").toList))
      = ⟨("Hello").toList, [],
          ("<h1>Hello</h1>\n\n<p>world</p>").toList⟩ ∧
    (∃ r : Str, (parse_writing_markdown
          ('#' :: ' ' ::
            (("Hello").toList ++ '\n' :: '\n' :: ("world").toList))).content
      = ("<h1>").toList ++ ("Hello").toList ++ ("</h1>").toList ++ r) := by
  constructor
  · have h := C10_single_header.1
      ('#' :: ' ' :: (("Hello").toList ++ '\n' :: '\n' :: ("world").toList))
      (by decide)
    rw [h]
    decide
  · exact (C10_single_header.2 (("Hello").toList) (("world").toList)
      (by decide) (by decide) (by decide) (by decide) (by decide)).2.2
